import Mathlib

/-!
# TheoForOptionsCalculator: a shallow embedding of `theo_pricer.cpp`

The development follows the source file top to bottom:

* `StringParser::parseDouble` and `StringParser::lineToInstrument` over lists of
  characters (one `Char` per byte of the `std::string`);
* `Theo::readUnderlyingPrices`, the running mean / mean of squares;
* `Theo::readTheoData`, the batching producer;
* `Theo::pushBatch`, `Theo::popBatch`, `Theo::doneReading`, `Theo::processBatch`
  as a step relation over one producer and `W` workers, and the queue alone as a
  sequential state machine;
* `Theo::calcTheos`, the gates of phase 1 and the joins of phase 2;
* the text of an output row, with `std::to_chars` on exact values.

Numbers.  A C++ `double` is modelled by `Double`: either an exact rational
(`Double.finite q`) or a non-finite value (`Double.nonfinite`, standing for
`±inf` and `NaN`).  Rounding of finite values is not modelled: all statements
are about exact arithmetic.  The operations `+`, `-`, `*` used by the source
send a non-finite operand to a non-finite result, which is what IEEE-754 does.
-/

namespace TheoPricer

/-! ## Numbers -/

/-- A `double` of the source in exact arithmetic: a rational, or a non-finite
value (`inf`, `-inf`, `NaN`). -/
inductive Double where
  | finite (q : ℚ)
  | nonfinite
deriving DecidableEq

namespace Double

/-- Addition of doubles; a non-finite operand gives a non-finite result. -/
def add : Double → Double → Double
  | finite a, finite b => finite (a + b)
  | _, _ => nonfinite

/-- Subtraction of doubles; a non-finite operand gives a non-finite result. -/
def sub : Double → Double → Double
  | finite a, finite b => finite (a - b)
  | _, _ => nonfinite

/-- Multiplication of doubles; a non-finite operand gives a non-finite result. -/
def mul : Double → Double → Double
  | finite a, finite b => finite (a * b)
  | _, _ => nonfinite

instance : Add Double := ⟨add⟩
instance : Sub Double := ⟨sub⟩
instance : Mul Double := ⟨mul⟩

/-- The literal `0.5` of the source. -/
def half : Double := finite (1 / 2)

end Double

/-! ## `Theo::readUnderlyingPrices` -/

/-- The three variables the loop of `readUnderlyingPrices` updates: the local
`count` and the members `runningAverageUp`, `runningAverageUpSquared`.  Like the
doubles, `count` is taken in exact arithmetic: a natural number, which the `int`
of the source is for fewer than `2^31` samples. -/
structure UnderlyingState where
  count : Nat
  runningAverageUp : ℚ
  runningAverageUpSquared : ℚ
deriving DecidableEq

/-- State before the first sample: `count = 0` and both members `0.0` (set by
the constructor of `Theo`). -/
def UnderlyingState.init : UnderlyingState :=
  { count := 0, runningAverageUp := 0, runningAverageUpSquared := 0 }

/-- One iteration of the `while (underlyingPricesFile >> underlyingPrice)` loop
(lines 264-266): `count++` first, then both running averages are updated with
the new `count`. -/
def underlyingStep (s : UnderlyingState) (underlyingPrice : ℚ) : UnderlyingState :=
  let count := s.count + 1
  { count := count
    runningAverageUp :=
      s.runningAverageUp + (underlyingPrice - s.runningAverageUp) / count
    runningAverageUpSquared :=
      s.runningAverageUpSquared +
        ((underlyingPrice * underlyingPrice) - s.runningAverageUpSquared) / count }

/-- The loop of `readUnderlyingPrices` over the values the stream yields. -/
def underlyingLoop (prices : List ℚ) : UnderlyingState :=
  prices.foldl underlyingStep UnderlyingState.init

/-- Function `Theo::readUnderlyingPrices`.  The argument is `none` when the file
cannot be opened and otherwise the values `>>` extracts before it fails.  The
result is the `success` flag with the two members after the call. -/
def readUnderlyingPrices (file : Option (List ℚ)) : Bool × ℚ × ℚ :=
  match file with
  | none => (false, 0, 0)
  | some prices =>
    let s := underlyingLoop prices
    if s.count = 0 then (false, s.runningAverageUp, s.runningAverageUpSquared)
    else (true, s.runningAverageUp, s.runningAverageUpSquared)

/-! ## Coefficients and price -/

/-- Lines 66-68 of `lineToInstrument`: the constants `A`, `B`, `C` computed from
the four parsed values. -/
def coefficients (refTheo refUp delta gamma : Double) : Double × Double × Double :=
  (refTheo - (delta * refUp) + Double.half * gamma * (refUp * refUp),
   delta - gamma * refUp,
   Double.half * gamma)

/-- Line 289 of `processBatch`: `A_ + avg * B_ + avgS * C_`. -/
def theoPrice (A B C : Double) (avg avgS : ℚ) : Double :=
  A + Double.finite avg * B + Double.finite avgS * C


/-! ## The C library as used by `parseDouble`

`strtod`, `isspace` and the character classes are library functions; they are
modelled after ISO C (7.4 and 7.22.1.3) in the "C" locale, the locale of a
program that never calls `setlocale`. -/

/-- Library function `isspace` in the "C" locale: space, `\t`, `\n`, `\v`, `\f`, `\r`. -/
def isspace (c : Char) : Bool :=
  c.toNat = 32 || (9 ≤ c.toNat && c.toNat ≤ 13)

/-- Library function `isdigit`. -/
def isdigit (c : Char) : Bool :=
  48 ≤ c.toNat && c.toNat ≤ 57

/-- Library function `isxdigit`. -/
def isxdigit (c : Char) : Bool :=
  isdigit c || (97 ≤ c.toNat && c.toNat ≤ 102) || (65 ≤ c.toNat && c.toNat ≤ 70)

/-- Library function `tolower` on the ASCII letters. -/
def tolower (c : Char) : Char :=
  if 65 ≤ c.toNat ∧ c.toNat ≤ 90 then Char.ofNat (c.toNat + 32) else c

/-- Value of a hexadecimal (or decimal) digit. -/
def xdigitVal (c : Char) : Nat :=
  if isdigit c then c.toNat - 48
  else if 97 ≤ c.toNat then c.toNat - 97 + 10
  else c.toNat - 65 + 10

/-- Value of a digit string in the given base, most significant digit first. -/
def digitsVal (base : Nat) (ds : List Char) : Nat :=
  ds.foldl (fun n c => n * base + xdigitVal c) 0

/-- The exact value `m * base ^ e` for an integer exponent. -/
def scale (m : Nat) (base : ℚ) (e : Int) : ℚ :=
  if 0 ≤ e then (m : ℚ) * base ^ e.toNat else (m : ℚ) / base ^ (-e).toNat

/-- The optional sign: is it `-`, and the rest after it. -/
def strtodSign (s : List Char) : Bool × List Char :=
  match s with
  | '-' :: u => (true, u)
  | '+' :: u => (false, u)
  | _ => (false, s)

/-- Digits, an optional radix point, digits; at least one digit in all.  Gives
the digits before the point, the digits after it and the unread rest. -/
def strtodMantissa (isd : Char → Bool) (s : List Char) :
    Option (List Char × List Char × List Char) :=
  let ip := s.takeWhile isd
  let r1 := s.dropWhile isd
  let fr : List Char × List Char :=
    match r1 with
    | '.' :: t => (t.takeWhile isd, t.dropWhile isd)
    | _ => ([], r1)
  if ip = [] ∧ fr.1 = [] then none else some (ip, fr.1, fr.2)

/-- The optional exponent part: the marker (`e` or `p`, either case), an
optional sign and at least one decimal digit.  A malformed exponent part is not
consumed: the exponent is `0` and the rest is the input. -/
def strtodExponent (marker : Char) (s : List Char) : Int × List Char :=
  match s with
  | [] => (0, s)
  | m :: t =>
    if tolower m = marker then
      let sg := strtodSign t
      let ds := sg.2.takeWhile isdigit
      if ds = [] then (0, s)
      else ((if sg.1 then -(digitsVal 10 ds : Int) else (digitsVal 10 ds : Int)),
            sg.2.dropWhile isdigit)
    else (0, s)

/-- Does `s` start with the lower-case word `p`, ignoring case? -/
def startsWithCI (p : List Char) (s : List Char) : Bool :=
  (s.take p.length).map tolower = p

/-- A decimal floating constant: mantissa and optional `e` exponent. -/
def strtodDecimal (s : List Char) : Option (Double × List Char) :=
  match strtodMantissa isdigit s with
  | none => none
  | some (ip, fp, r) =>
    let ex := strtodExponent 'e' r
    some (Double.finite (scale (digitsVal 10 (ip ++ fp)) 10 (ex.1 - (fp.length : Int))), ex.2)

/-- A hexadecimal floating constant: `0x`, hexadecimal mantissa and optional
binary `p` exponent. -/
def strtodHex (s : List Char) : Option (Double × List Char) :=
  match s with
  | z :: x :: t =>
    if z = '0' ∧ tolower x = 'x' then
      match strtodMantissa isxdigit t with
      | none => none
      | some (ip, fp, r) =>
        let ex := strtodExponent 'p' r
        some (Double.finite
          (scale (digitsVal 16 (ip ++ fp)) 2 (ex.1 - 4 * (fp.length : Int))), ex.2)
    else none
  | _ => none

/-- The words `infinity`, `inf`, `nan` and `nan(n-char-sequence)`, ignoring case. -/
def strtodSpecial (s : List Char) : Option (Double × List Char) :=
  if startsWithCI "infinity".toList s then some (Double.nonfinite, s.drop 8)
  else if startsWithCI "inf".toList s then some (Double.nonfinite, s.drop 3)
  else if startsWithCI "nan".toList s then
    match s.drop 3 with
    | '(' :: t =>
      match t.dropWhile (fun c => c.isAlphanum || c = '_') with
      | ')' :: u => some (Double.nonfinite, u)
      | _ => some (Double.nonfinite, s.drop 3)
    | r => some (Double.nonfinite, r)
  else none

/-- Negation of a double. -/
def Double.neg : Double → Double
  | Double.finite q => Double.finite (-q)
  | Double.nonfinite => Double.nonfinite

/-- Library function `strtod` on a NUL-terminated string given without its
terminator: the converted value and the unread tail (`*endptr`).  Leading white
space is skipped, then an optional sign, then the longest subject sequence.
With no conversion the value is `0` and the tail is the whole string. -/
def strtod (buff : List Char) : Double × List Char :=
  let s0 := buff.dropWhile isspace
  let sg := strtodSign s0
  let body : Option (Double × List Char) :=
    match strtodSpecial sg.2 with
    | some r => some r
    | none =>
      match strtodHex sg.2 with
      | some r => some r
      | none => strtodDecimal sg.2
  match body with
  | some (v, tail) => (if sg.1 then Double.neg v else v, tail)
  | none => (Double.finite 0, buff)

/-! ## `StringParser` -/

/-- The constant `sizeof(buff)` of `parseDouble`. -/
def BUFF_SIZE : Nat := 48

/-- Function `StringParser::parseDouble` on the span `[s, e)`, given as the list
of its characters.  The span is copied into `buff`, cut to `sizeof(buff) - 1`
characters when it is that long or longer, and NUL-terminated; `strtod` reads
the buffer as a C string, that is up to its first NUL; the tail is accepted
when only white space remains.  The result is the returned flag and `val`. -/
def parseDouble (span : List Char) : Bool × Double :=
  let len := span.length
  let len := if len ≥ BUFF_SIZE then BUFF_SIZE - 1 else len
  let buff := span.take len
  let cstr := buff.takeWhile (fun c => c.toNat ≠ 0)
  let r := strtod cstr
  let tail := r.2.dropWhile isspace
  (tail.isEmpty, r.1)

/-- Method `std::string::find(c, pos)`: the index of the first `c` at or after
`pos`, or `none` for `npos`. -/
def find (line : List Char) (c : Char) (pos : Nat) : Option Nat :=
  let r := line.drop pos
  if r.indexOf c < r.length then some (pos + r.indexOf c) else none

/-- The characters of `line` in the span `[s, e)`. -/
def spanOf (line : List Char) (s e : Nat) : List Char :=
  (line.drop s).take (e - s)

/-- Struct `Theo::InstrumentData`. -/
structure InstrumentData where
  name_ : List Char
  A_ : Double
  B_ : Double
  C_ : Double
deriving DecidableEq

/-- Function `StringParser::lineToInstrument`: `none` for `return false`, and on
success the name and the three constants written through the out-parameters. -/
def lineToInstrument (line : List Char) : Option InstrumentData :=
  match find line ',' 0 with
  | none => none
  | some comma1 =>
  match find line ',' (comma1 + 1) with
  | none => none
  | some comma2 =>
  match find line ',' (comma2 + 1) with
  | none => none
  | some comma3 =>
  match find line ',' (comma3 + 1) with
  | none => none
  | some comma4 =>
    let refTheo := parseDouble (spanOf line (comma1 + 1) comma2)
    let refUp := parseDouble (spanOf line (comma2 + 1) comma3)
    let delta := parseDouble (spanOf line (comma3 + 1) comma4)
    let gamma := parseDouble (spanOf line (comma4 + 1) line.length)
    if !refTheo.1 then none
    else if !refUp.1 then none
    else if !delta.1 then none
    else if !gamma.1 then none
    else
      let abc := coefficients refTheo.2 refUp.2 delta.2 gamma.2
      some { name_ := line.take comma1, A_ := abc.1, B_ := abc.2.1, C_ := abc.2.2 }

/-! ## Plain decimal literals

The text of a numeric field in its simplest form: an optional sign, decimal
digits and optionally a point followed by decimal digits.  This is the reading
of "plain decimal literal" used to state what the decoder accepts. -/

/-- A plain decimal literal by its parts: `sign` is `none` for no sign,
`some false` for `+`, `some true` for `-`; `point` tells whether the text has a
decimal point. -/
structure DecimalLiteral where
  sign : Option Bool
  intDigits : List Char
  point : Bool
  fracDigits : List Char

namespace DecimalLiteral

/-- The characters of the literal. -/
def text (d : DecimalLiteral) : List Char :=
  (match d.sign with
    | none => []
    | some false => ['+']
    | some true => ['-'])
  ++ d.intDigits ++ (if d.point then '.' :: d.fracDigits else [])

/-- Both digit strings hold decimal digits only, there is at least one digit,
and digits after the point require a point. -/
def WellFormed (d : DecimalLiteral) : Prop :=
  (∀ c ∈ d.intDigits, isdigit c = true) ∧ (∀ c ∈ d.fracDigits, isdigit c = true) ∧
  (d.intDigits ≠ [] ∨ d.fracDigits ≠ []) ∧ (d.point = false → d.fracDigits = [])

instance (d : DecimalLiteral) : Decidable d.WellFormed := by
  unfold WellFormed
  infer_instance

/-- The number the literal denotes. -/
def value (d : DecimalLiteral) : ℚ :=
  (if d.sign = some true then -1 else 1) *
    ((digitsVal 10 (d.intDigits ++ d.fracDigits) : ℚ) / 10 ^ d.fracDigits.length)

end DecimalLiteral

/-! ## `Theo::readTheoData` -/

/-- The constant `Theo::BATCH_SIZE`. -/
def BATCH_SIZE : Nat := 500

/-- Test `line.find(pat) != std::string::npos`: does `pat` occur in `line`? -/
def hasSubstr (pat : List Char) : List Char → Bool
  | [] => pat.isEmpty
  | c :: t => pat.isPrefixOf (c :: t) || hasSubstr pat t

/-- The header test of `readTheoData`: `line.find("INSTRUMENTS") != npos`. -/
def isHeaderLine (line : List Char) : Bool :=
  hasSubstr "INSTRUMENTS".toList line

/-- What the producer does that is visible outside the loop body: a write of a
record at `currentBatch.data[index]`, a call of `pushBatch` with the records
`data[0 .. size)` of the batch, and the call of `doneReading`. -/
inductive Event where
  | write (index : Nat) (r : InstrumentData)
  | push (batch : List InstrumentData)
  | doneReading
deriving DecidableEq

/-- The loop variables of `readTheoData`: the flag `first` and `currentBatch`,
given by its records `data[0 .. size)`, so that `size` is the length. -/
structure ReaderState where
  first : Bool
  currentBatch : List InstrumentData
deriving DecidableEq

/-- Loop variables before the first line: `first = true` and an empty batch. -/
def ReaderState.init : ReaderState :=
  { first := true, currentBatch := [] }

/-- One iteration of `while (getline(theoFile, line))` (lines 222-237): the new
loop variables and the events of the iteration. -/
def readerStep (st : ReaderState) (line : List Char) : ReaderState × List Event :=
  if st.first && isHeaderLine line then
    ({ st with first := false }, [])
  else
    match lineToInstrument line with
    | none => (st, [])
    | some r =>
      let index := st.currentBatch.length
      let data := st.currentBatch ++ [r]
      if data.length = BATCH_SIZE then
        ({ st with currentBatch := [] }, [Event.write index r, Event.push data])
      else
        ({ st with currentBatch := data }, [Event.write index r])

/-- The `while` loop of `readTheoData` over the lines `getline` yields. -/
def readerLoop (st : ReaderState) : List (List Char) → ReaderState × List Event
  | [] => (st, [])
  | line :: rest =>
    let r := readerStep st line
    let rs := readerLoop r.1 rest
    (rs.1, r.2 ++ rs.2)

/-- Lines 240-246 of `readTheoData`: the lingering batch is pushed when it holds
a record, then `doneReading` is called. -/
def readerFinish (st : ReaderState) : List Event :=
  (if st.currentBatch.length > 0 then [Event.push st.currentBatch] else [])
    ++ [Event.doneReading]

/-- Function `Theo::readTheoData`.  The argument is `none` when the file cannot
be opened and otherwise its lines.  The result is the `success` flag and the
events in order. -/
def readTheoData (file : Option (List (List Char))) : Bool × List Event :=
  match file with
  | none => (false, [])
  | some lines =>
    let r := readerLoop ReaderState.init lines
    (true, r.2 ++ readerFinish r.1)

/-- The batches of the `pushBatch` calls of an event list, in order. -/
def pushedBatches : List Event → List (List InstrumentData)
  | [] => []
  | Event.push b :: es => b :: pushedBatches es
  | _ :: es => pushedBatches es

/-- The indices of the array writes of an event list, in order. -/
def writeIndices : List Event → List Nat
  | [] => []
  | Event.write i _ :: es => i :: writeIndices es
  | _ :: es => writeIndices es

/-- Code side: the lines the loop of `readTheoData` hands to `lineToInstrument`
when it starts with the given value of `first`.  The flag is cleared only in the
header branch (lines 222-225), so the loop skips the earliest line that contains
`INSTRUMENTS`, wherever it stands.  This describes what the source does
(`readerLoop_spec`); what the specification means by the non-header lines is
`nonHeaderLines`. -/
def loopLines (first : Bool) (lines : List (List Char)) : List (List Char) :=
  if first then lines.eraseP isHeaderLine else lines

/-- Code side: the records the loop of `readTheoData` obtains from
`lineToInstrument`, in input order. -/
def loopRecords (first : Bool) (lines : List (List Char)) : List InstrumentData :=
  (loopLines first lines).filterMap lineToInstrument

/-- Specification side (sections 4.5 and 6): only a leading line can be the
header.  The non-header lines are all lines but a first line that contains
`INSTRUMENTS`. -/
def nonHeaderLines : List (List Char) → List (List Char)
  | [] => []
  | line :: rest => if isHeaderLine line then rest else line :: rest

/-- Specification side: the records decoded from the accepted non-header lines,
in input order. -/
def acceptedNonHeaderRecords (lines : List (List Char)) : List InstrumentData :=
  (nonHeaderLines lines).filterMap lineToInstrument

/-! ## The pipeline of `calcTheos`: one producer, `W` workers

The threads of phase 2 are interleaved at the granularity of the critical
sections of the source.  A step of the producer is one iteration of the loop of
`readTheoData` (with the `pushBatch` it may contain), the push of the lingering
batch, or `doneReading`.  A step of a worker is one call of `popBatch`, or the
computation of the rows of the popped batch together with their write under
`writeLock`.  A call of `popBatch` on an empty queue with `done` unset is
parked on the condition variable: the worker has no step. -/

/-- A row of the output file after the header: the name and the price. -/
structure ResultRow where
  name : List Char
  price : Double
deriving DecidableEq

/-- The row `processBatch` computes for a record (lines 287-298), with the
price as a number. -/
def rowOf (avg avgS : ℚ) (r : InstrumentData) : ResultRow :=
  { name := r.name_, price := theoPrice r.A_ r.B_ r.C_ avg avgS }

/-- Where the producer thread stands: in the loop of `readTheoData`, between
the push of the lingering batch and `doneReading`, or returned from
`readTheoData` (after `doneReading`, or at line 209 when the file cannot be
opened). -/
inductive ProducerPc where
  | reading
  | flushed
  | finished
deriving DecidableEq

/-- Where a worker thread stands in `processBatch`: about to call `popBatch`,
owning a popped batch whose rows are not yet written, or returned after
`popBatch` gave `false`. -/
inductive WorkerPc where
  | popping
  | holding (batch : List InstrumentData)
  | returned
deriving DecidableEq

/-- The threads of phase 2. -/
inductive Thread where
  | producer
  | worker (i : Nat)
deriving DecidableEq

/-- State of phase 2.  The fields `instruments` and `done` are the members of
`Theo`; `avg` and `avgS` are the two statistics, fixed in phase 1; `unread`
holds the lines `getline` has not yet returned; `reader` holds the loop
variables of `readTheoData`; `output` holds the rows written to the file.  The
fields `read` (the lines read so far) and `popped` (the batches `popBatch` has
returned so far) are history variables used to state invariants. -/
structure Pipeline where
  avg : ℚ
  avgS : ℚ
  unread : List (List Char)
  read : List (List Char)
  reader : ReaderState
  pc : ProducerPc
  instruments : List (List InstrumentData)
  done : Bool
  workers : List WorkerPc
  output : List ResultRow
  popped : List (List InstrumentData)
deriving DecidableEq

/-- State at the start of phase 2: nothing read, the queue empty, `done` unset,
`W` workers about to call `popBatch`, no row written. -/
def Pipeline.init (lines : List (List Char)) (W : Nat) (avg avgS : ℚ) : Pipeline :=
  { avg := avg, avgS := avgS, unread := lines, read := [], reader := ReaderState.init,
    pc := ProducerPc.reading, instruments := [], done := false,
    workers := List.replicate W WorkerPc.popping, output := [], popped := [] }

/-- The batch the producer is filling; after the loop the lingering batch has
been moved into the queue and the producer owns none. -/
def Pipeline.openBatch (s : Pipeline) : List InstrumentData :=
  match s.pc with
  | ProducerPc.reading => s.reader.currentBatch
  | _ => []

/-- One step of the producer thread, `none` when it has returned.  Function
`pushBatch` appends at the back of `instruments`; `doneReading` sets `done`. -/
def producerStep (s : Pipeline) : Option Pipeline :=
  match s.pc with
  | ProducerPc.reading =>
    match s.unread with
    | line :: rest =>
      let r := readerStep s.reader line
      some { s with unread := rest, read := s.read ++ [line], reader := r.1,
                    instruments := s.instruments ++ pushedBatches r.2 }
    | [] =>
      some { s with pc := ProducerPc.flushed,
                    instruments := s.instruments ++
                      (if s.reader.currentBatch.length > 0 then [s.reader.currentBatch] else []) }
  | ProducerPc.flushed => some { s with pc := ProducerPc.finished, done := true }
  | ProducerPc.finished => none

/-- One step of worker `i`, `none` when the worker is parked in `popBatch`, has
returned or does not exist.  Function `popBatch` on a non-empty queue takes the
batch at the back; on an empty queue it returns `false` when `done` is set and
waits otherwise.  A worker owning a batch appends its rows to the output. -/
def workerStep (s : Pipeline) (i : Nat) : Option Pipeline :=
  match s.workers.get? i with
  | none => none
  | some WorkerPc.returned => none
  | some (WorkerPc.holding batch) =>
    some { s with output := s.output ++ batch.map (rowOf s.avg s.avgS),
                  workers := s.workers.set i WorkerPc.popping }
  | some WorkerPc.popping =>
    match s.instruments.getLast? with
    | some batch =>
      some { s with instruments := s.instruments.dropLast,
                    workers := s.workers.set i (WorkerPc.holding batch),
                    popped := s.popped ++ [batch] }
    | none =>
      if s.done then some { s with workers := s.workers.set i WorkerPc.returned }
      else none

/-- One step of the scheduled thread. -/
def Pipeline.step (s : Pipeline) : Thread → Option Pipeline
  | Thread.producer => producerStep s
  | Thread.worker i => workerStep s i

/-- The run of a schedule from a state; `none` when a scheduled thread has no
step. -/
def Pipeline.run (s : Pipeline) : List Thread → Option Pipeline
  | [] => some s
  | t :: ts =>
    match s.step t with
    | none => none
    | some s1 => s1.run ts

/-- The records of the batches the workers own. -/
def heldRecords : List WorkerPc → List InstrumentData
  | [] => []
  | WorkerPc.holding batch :: ws => batch ++ heldRecords ws
  | _ :: ws => heldRecords ws

/-- Terminal states: every worker has returned. -/
def Pipeline.allReturned (s : Pipeline) : Prop :=
  ∀ w ∈ s.workers, w = WorkerPc.returned

instance (s : Pipeline) : Decidable s.allReturned := by
  unfold Pipeline.allReturned
  infer_instance

/-- The records of the batch a worker owns. -/
def WorkerPc.records : WorkerPc → List InstrumentData
  | WorkerPc.holding batch => batch
  | _ => []

/-- Invariant of phase 2 on the file `lines` with the statistics `avg`, `avgS`.
* `stats`: the two statistics are those fixed in phase 1;
* `file`: the lines read and the lines unread make up the file;
* `first`: the flag `first` is still set exactly when no line read so far
  passed the header test;
* `records`: the records of the batches popped so far, of the batches in the
  queue and of the open batch of the producer are, as a multiset, the records
  the loop has obtained from `lineToInstrument` so far (`loopRecords`);
* `rows`: the rows written and the rows of the batches the workers own are, as
  a multiset, the rows of the batches popped so far;
* `unread_nil`: the producer leaves its loop at the end of the file;
* `done_iff`: `done` is set exactly when the producer has called `doneReading`;
* `returned`: a worker has returned only if `done` is set and the queue is
  empty. -/
structure Pipeline.Inv (lines : List (List Char)) (avg avgS : ℚ) (s : Pipeline) : Prop where
  stats : s.avg = avg ∧ s.avgS = avgS
  file : s.read ++ s.unread = lines
  first : s.reader.first = true ↔ ∀ l ∈ s.read, isHeaderLine l = false
  records :
    (↑s.popped.flatten : Multiset InstrumentData) + ↑s.instruments.flatten + ↑s.openBatch
      = ↑(loopRecords true s.read)
  rows :
    (↑s.output : Multiset ResultRow)
        + Multiset.map (rowOf s.avg s.avgS) ↑(heldRecords s.workers)
      = Multiset.map (rowOf s.avg s.avgS) ↑s.popped.flatten
  unread_nil : s.pc ≠ ProducerPc.reading → s.unread = []
  done_iff : s.done = true ↔ s.pc = ProducerPc.finished
  returned : (∃ w ∈ s.workers, w = WorkerPc.returned) → s.done = true ∧ s.instruments = []

/-! ## A sample run of the pipeline -/

/-- A sample instrument file: a header, one well-formed line, one malformed line. -/
def sampleLines : List (List Char) :=
  ["INSTRUMENTS".toList, "AAPL,100.0,150.0,0.5,0.01".toList, "bad line".toList]

/-- A schedule for `sampleLines` with two workers: the producer reads the three
lines and pushes the lingering batch, worker 0 pops it, the producer calls
`doneReading`, worker 1 finds the queue empty and returns, worker 0 writes its
row, finds the queue empty and returns. -/
def sampleSchedule : List Thread :=
  [Thread.producer, Thread.producer, Thread.producer, Thread.producer, Thread.worker 0,
   Thread.producer, Thread.worker 1, Thread.worker 0, Thread.worker 0]

/-- The record of the well-formed line of `sampleLines`. -/
def sampleRecord : InstrumentData :=
  { name_ := "AAPL".toList, A_ := Double.finite (275 / 2), B_ := Double.finite (-1),
    C_ := Double.finite (1 / 200) }

/-- The state `sampleSchedule` ends in, for the statistics of `150 150 150`. -/
def sampleFinal : Pipeline :=
  { avg := 150, avgS := 22500, unread := [], read := sampleLines,
    reader := { first := false, currentBatch := [sampleRecord] },
    pc := ProducerPc.finished, instruments := [], done := true,
    workers := [WorkerPc.returned, WorkerPc.returned],
    output := [{ name := "AAPL".toList, price := Double.finite 100 }],
    popped := [[sampleRecord]] }

/-! ## The queue as a sequential state machine -/

/-- The members `instruments` and `done` of `Theo`: the vector of batches, its
back being the last element, and the flag. -/
structure BatchQueue where
  instruments : List (List InstrumentData)
  done : Bool
deriving DecidableEq

/-- Function `Theo::pushBatch`: `instruments.push_back(incoming)`. -/
def pushBatch (q : BatchQueue) (incoming : List InstrumentData) : BatchQueue :=
  { q with instruments := q.instruments ++ [incoming] }

/-- Function `Theo::doneReading`: `done = true`. -/
def doneReading (q : BatchQueue) : BatchQueue :=
  { q with done := true }

/-- Function `Theo::popBatch` as one atomic step.  The result is `none` while
the caller waits on the condition variable (queue empty, `done` unset),
`some (none, q)` for `return false` and `some (some out, q1)` for `return true`
with the batch moved into `out` and the queue after `pop_back`. -/
def popBatch (q : BatchQueue) : Option (Option (List InstrumentData) × BatchQueue) :=
  match q.instruments.getLast? with
  | some out => some (some out, { q with instruments := q.instruments.dropLast })
  | none => if q.done then some (none, q) else none

/-- Calls of `pushBatch` in sequence, one per batch of the list. -/
def pushAll (q : BatchQueue) (batches : List (List InstrumentData)) : BatchQueue :=
  batches.foldl pushBatch q

/-- Calls of `popBatch` in sequence, `n` of them: the batches returned, in
order, and the queue left; `none` when a call waits or returns `false`. -/
def popMany : Nat → BatchQueue → Option (List (List InstrumentData) × BatchQueue)
  | 0, q => some ([], q)
  | n + 1, q =>
    match popBatch q with
    | some (some out, q1) =>
      match popMany n q1 with
      | some (outs, q2) => some (out :: outs, q2)
      | none => none
    | _ => none

/-- The queue of a state of phase 2. -/
def Pipeline.queue (s : Pipeline) : BatchQueue :=
  { instruments := s.instruments, done := s.done }

/-! ## `Theo::calcTheos` -/

/-- State at the start of phase 2 for an instrument file that may fail to open.
When it opens, the state is `Pipeline.init`.  When it does not, `readTheoData`
returns at line 209: the producer has returned, nothing was pushed and `done`
is unset. -/
def Pipeline.start (file : Option (List (List Char))) (W : Nat) (avg avgS : ℚ) : Pipeline :=
  match file with
  | some lines => Pipeline.init lines W avg avgS
  | none => { Pipeline.init [] W avg avgS with pc := ProducerPc.finished }

/-- The number of worker threads `calcTheos` starts (lines 142-143), from the
value of `std::thread::hardware_concurrency()`. -/
def numRemainingThreads (hardwareConcurrency : Nat) : Nat :=
  let hw := max 1 hardwareConcurrency
  if hw > 1 then hw - 1 else 1

/-- What a call of `calcTheos` that returns has done: the status returned,
whether the output file `result.csv` was opened for writing, whether
the producer thread was started, how many workers were started and the rows
written after the header. -/
structure CalcOutcome where
  status : Nat
  outputOpened : Bool
  producerStarted : Bool
  workersStarted : Nat
  rows : List ResultRow
deriving DecidableEq

/-- Function `Theo::calcTheos`.  The arguments are the underlying-price file
(as for `readUnderlyingPrices`), whether `result.csv` opens, the instrument file
(as for `readTheoData`), the hardware concurrency and a schedule of the threads
of phase 2.  The result is `some` outcome when under this schedule the producer
and all workers return, so that the joins of lines 151-155 return, and `none`
when they do not.  The flag `successful` is set by `readUnderlyingPrices`, then
by `readTheoData`, which leaves it `false` exactly when the instrument file
does not open. -/
def calcTheos (underlying : Option (List ℚ)) (outputOpens : Bool)
    (theo : Option (List (List Char))) (hardwareConcurrency : Nat)
    (sched : List Thread) : Option CalcOutcome :=
  let u := readUnderlyingPrices underlying
  if !u.1 then
    some { status := 1, outputOpened := false, producerStarted := false, workersStarted := 0,
           rows := [] }
  else if !outputOpens then
    some { status := 1, outputOpened := false, producerStarted := false, workersStarted := 0,
           rows := [] }
  else
    let W := numRemainingThreads hardwareConcurrency
    match (Pipeline.start theo W u.2.1 u.2.2).run sched with
    | none => none
    | some s =>
      if s.pc = ProducerPc.finished ∧ s.allReturned then
        some { status := if theo.isSome then 0 else 1, outputOpened := true,
               producerStarted := true, workersStarted := W, rows := s.output }
      else none

/-- The state of the sample run after seven steps of `sampleSchedule`: worker 1
has returned, worker 0 owns the only batch. -/
def sampleMid : Pipeline :=
  { sampleFinal with
    workers := [WorkerPc.holding [sampleRecord], WorkerPc.returned], output := [] }

/-- The state of the sample run after eight steps of `sampleSchedule`: worker 0
has written its row and is about to call `popBatch` again. -/
def sampleLate : Pipeline :=
  { sampleFinal with workers := [WorkerPc.popping, WorkerPc.returned] }

/-! ## The average of the delta-gamma theo over the samples -/

/-- The delta-gamma theo of an instrument at the underlying price `v`: the
second-order expansion around `refUp`. -/
def deltaGammaTheo (refTheo refUp delta gamma v : ℚ) : ℚ :=
  refTheo + delta * (v - refUp) + 0.5 * gamma * (v - refUp) ^ 2

/-- The naive average: the delta-gamma theo is evaluated at every sample and the
values are averaged. -/
def naiveAverageTheo (refTheo refUp delta gamma : ℚ) (vs : List ℚ) : ℚ :=
  (vs.map (deltaGammaTheo refTheo refUp delta gamma)).sum / vs.length

/-! ## The text of a row

Function `std::to_chars` is a library function; it is modelled after the C++
standard (`[charconv.to.chars]`) on exact values: in fixed notation with
precision 4 it writes the decimal expansion rounded to four digits after the
point, to nearest with ties to even, when the text fits the buffer. -/

/-- A non-negative rational rounded to the nearest natural number, ties to even. -/
def roundHalfEven (q : ℚ) : Nat :=
  let n := q.num.natAbs
  let d := q.den
  let f := n / d
  let r := n % d
  if 2 * r < d then f
  else if d < 2 * r then f + 1
  else if f % 2 = 0 then f else f + 1

/-- The text of `q` in fixed notation with `precision ≥ 1` digits after the
point: sign, integer part, point, fraction padded with zeros. -/
def fixedText (precision : Nat) (q : ℚ) : List Char :=
  let n := roundHalfEven ((if q < 0 then -q else q) * 10 ^ precision)
  let ip := Nat.toDigits 10 (n / 10 ^ precision)
  let fp := Nat.toDigits 10 (n % 10 ^ precision)
  (if q < 0 then ['-'] else []) ++ ip ++ '.' :: (List.replicate (precision - fp.length) '0' ++ fp)

/-- The size of the buffer `num` of `processBatch`. -/
def NUM_SIZE : Nat := 32

/-- Library function `std::to_chars(num, num + sizeof num, q, fixed, 4)` on a
finite value: `some` text, the characters `[num, p)`, when the text fits the
buffer; `none` when it does not: the call then reports `value_too_large`, returns
`p = num + sizeof num` and leaves the content of the buffer unspecified. -/
def toChars (q : ℚ) : Option (List Char) :=
  if (fixedText 4 q).length ≤ NUM_SIZE then some (fixedText 4 q) else none

/-- The text `processBatch` appends to `buff` for a record (lines 289-298): the
name, a comma, the characters `[num, p)` and a newline.  The result is `none`
when the model does not determine the text: after `value_too_large` the 32
characters appended are unspecified, and for a non-finite price the library
writes one of the words for infinities and NaNs. -/
def rowText (avg avgS : ℚ) (r : InstrumentData) : Option (List Char) :=
  match theoPrice r.A_ r.B_ r.C_ avg avgS with
  | Double.finite q =>
    match toChars q with
    | some num => some (r.name_ ++ ',' :: (num ++ [Char.ofNat 10]))
    | none => none
  | Double.nonfinite => none

/-- The row as the specification describes it: the name, a comma, the price in
fixed notation with four digits after the point, and a newline. -/
def specRowText (name : List Char) (price : ℚ) : List Char :=
  name ++ ',' :: (fixedText 4 price ++ [Char.ofNat 10])

/-! ## A sample file without a header -/

/-- An instrument file without a header whose second line has the name
`INSTRUMENTS`: both lines are well-formed. -/
def lateHeaderLines : List (List Char) :=
  ["AAPL,100.0,150.0,0.5,0.01".toList, "INSTRUMENTS,100.0,150.0,0.5,0.01".toList]

/-- The record of the second line of `lateHeaderLines`. -/
def lateHeaderRecord : InstrumentData :=
  { name_ := "INSTRUMENTS".toList, A_ := Double.finite (275 / 2), B_ := Double.finite (-1),
    C_ := Double.finite (1 / 200) }

/-- A schedule for `lateHeaderLines` with one worker: the producer reads the two
lines and pushes the lingering batch, the worker pops it, the producer calls
`doneReading`, the worker writes its rows, finds the queue empty and returns. -/
def lateHeaderSchedule : List Thread :=
  [Thread.producer, Thread.producer, Thread.producer, Thread.worker 0, Thread.producer,
   Thread.worker 0, Thread.worker 0]

/-- The state `lateHeaderSchedule` ends in, for the statistics of `150 150 150`. -/
def lateHeaderFinal : Pipeline :=
  { avg := 150, avgS := 22500, unread := [], read := lateHeaderLines,
    reader := { first := false, currentBatch := [sampleRecord] },
    pc := ProducerPc.finished, instruments := [], done := true,
    workers := [WorkerPc.returned],
    output := [{ name := "AAPL".toList, price := Double.finite 100 }],
    popped := [[sampleRecord]] }

/-! # Theorems -/

/-! ## The statistics reducer -/

/-- Loop invariant of `readUnderlyingPrices`, started in any state: the count
grows by the number of samples and `average * count` grows by their sum. -/
theorem foldl_underlyingStep (vs : List ℚ) (s : UnderlyingState) :
    (vs.foldl underlyingStep s).count = s.count + vs.length ∧
    (vs.foldl underlyingStep s).runningAverageUp * ((s.count + vs.length : Nat) : ℚ)
      = s.runningAverageUp * (s.count : ℚ) + vs.sum ∧
    (vs.foldl underlyingStep s).runningAverageUpSquared * ((s.count + vs.length : Nat) : ℚ)
      = s.runningAverageUpSquared * (s.count : ℚ) + (vs.map (fun v => v * v)).sum := by
  induction vs generalizing s with
  | nil => simp
  | cons v vs ih =>
    obtain ⟨h1, h2, h3⟩ := ih (underlyingStep s v)
    have hc : (underlyingStep s v).count = s.count + 1 := rfl
    have hne : ((s.count : ℚ) + 1) ≠ 0 := by positivity
    have e : s.count + (v :: vs).length = (underlyingStep s v).count + vs.length := by
      rw [hc, List.length_cons]; omega
    simp only [List.foldl_cons, List.map_cons, List.sum_cons]
    refine ⟨by rw [h1, e], ?_, ?_⟩
    · rw [e, h2]
      simp only [underlyingStep, Nat.cast_add, Nat.cast_one]
      field_simp
      ring
    · rw [e, h3]
      simp only [underlyingStep, Nat.cast_add, Nat.cast_one]
      field_simp
      ring

/-- The loop of `readUnderlyingPrices` counts the samples. -/
theorem underlyingLoop_count (vs : List ℚ) : (underlyingLoop vs).count = vs.length := by
  have h := (foldl_underlyingStep vs UnderlyingState.init).1
  simpa [underlyingLoop, UnderlyingState.init] using h

/-- On a non-empty sample list the loop ends with the arithmetic means. -/
theorem underlyingLoop_means (vs : List ℚ) (h : vs ≠ []) :
    (underlyingLoop vs).runningAverageUp = vs.sum / vs.length ∧
    (underlyingLoop vs).runningAverageUpSquared
      = (vs.map (fun v => v * v)).sum / vs.length := by
  obtain ⟨_, h2, h3⟩ := foldl_underlyingStep vs UnderlyingState.init
  have hlen : (vs.length : ℚ) ≠ 0 := by
    have : 0 < vs.length := List.length_pos.mpr h
    exact_mod_cast this.ne'
  simp only [UnderlyingState.init, Nat.zero_add, Nat.cast_zero, mul_zero, zero_add] at h2 h3
  exact ⟨by rw [eq_div_iff hlen]; exact h2, by rw [eq_div_iff hlen]; exact h3⟩

/-- On a non-empty sample list `readUnderlyingPrices` succeeds with the two
arithmetic means. -/
theorem readUnderlyingPrices_of_ne_nil (vs : List ℚ) (h : vs ≠ []) :
    readUnderlyingPrices (some vs)
      = (true, vs.sum / vs.length, (vs.map (fun v => v * v)).sum / vs.length) := by
  obtain ⟨h1, h2⟩ := underlyingLoop_means vs h
  have hc : (underlyingLoop vs).count ≠ 0 := by
    rw [underlyingLoop_count]; exact fun h0 => h (List.length_eq_zero.mp h0)
  simp [readUnderlyingPrices, hc, h1, h2]

/-- C1: in exact arithmetic, for every non-empty sequence of underlying prices
`v_1 .. v_n`, the updates of `readUnderlyingPrices` folded from the initial
state `(0, 0)` end with `runningAverageUp = (v_1+...+v_n)/n` and
`runningAverageUpSquared = (v_1^2+...+v_n^2)/n`, and the function reports
success with these two values. -/
theorem readUnderlyingPrices_means (vs : List ℚ) (h : vs ≠ []) :
    (vs.foldl underlyingStep UnderlyingState.init).runningAverageUp = vs.sum / vs.length ∧
    (vs.foldl underlyingStep UnderlyingState.init).runningAverageUpSquared
      = (vs.map (fun v => v * v)).sum / vs.length ∧
    readUnderlyingPrices (some vs)
      = (true, vs.sum / vs.length, (vs.map (fun v => v * v)).sum / vs.length) :=
  ⟨(underlyingLoop_means vs h).1, (underlyingLoop_means vs h).2,
   readUnderlyingPrices_of_ne_nil vs h⟩

/-- C1, the sample run of the specification: the input `150 150 150` gives
`mean = 150` and `meanOfSquares = 22500`. -/
theorem readUnderlyingPrices_means_witness :
    ([150, 150, 150] : List ℚ) ≠ [] ∧
    readUnderlyingPrices (some [150, 150, 150]) = (true, 150, 22500) := by
  refine ⟨by simp, ?_⟩
  rw [(readUnderlyingPrices_means [150, 150, 150] (by simp)).2.2]
  norm_num

/-! ## Coefficients -/

/-- On finite values the constants of `lineToInstrument` are the rational
expressions of the source. -/
theorem coefficients_finite (refTheo refUp delta gamma : ℚ) :
    coefficients (Double.finite refTheo) (Double.finite refUp) (Double.finite delta)
        (Double.finite gamma)
      = (Double.finite (refTheo - delta * refUp + 1 / 2 * gamma * (refUp * refUp)),
         Double.finite (delta - gamma * refUp),
         Double.finite (1 / 2 * gamma)) := rfl

/-- The price of `processBatch` on finite constants. -/
theorem theoPrice_finite (A B C avg avgS : ℚ) :
    theoPrice (Double.finite A) (Double.finite B) (Double.finite C) avg avgS
      = Double.finite (A + avg * B + avgS * C) := rfl

/-- C2: in exact arithmetic the constants `A`, `B`, `C` that `lineToInstrument`
derives from `(refTheo, refUp, delta, gamma)` are
`A = refTheo - delta*refUp + 0.5*gamma*refUp^2`, `B = delta - gamma*refUp`,
`C = 0.5*gamma`, and they satisfy `A + B*refUp + C*refUp^2 = refTheo`. -/
theorem coefficients_reproduce_refTheo (refTheo refUp delta gamma : ℚ) :
    ∃ A B C : ℚ,
      coefficients (Double.finite refTheo) (Double.finite refUp) (Double.finite delta)
          (Double.finite gamma) = (Double.finite A, Double.finite B, Double.finite C) ∧
      A = refTheo - delta * refUp + 0.5 * gamma * refUp ^ 2 ∧
      B = delta - gamma * refUp ∧
      C = 0.5 * gamma ∧
      A + B * refUp + C * refUp ^ 2 = refTheo := by
  refine ⟨_, _, _, coefficients_finite refTheo refUp delta gamma, ?_, rfl, ?_, ?_⟩
  · ring
  · ring
  · ring

/-- C3, as stated, fails: for the instrument `(100, 150, 0.5, 0.01)` and the
underlying prices `140 160` the reducer gives `mean = 150` and
`meanOfSquares = 22600`; the worker prices `100.5`, the quadratic evaluated at
the mean is `100`. -/
theorem price_differs_from_quadratic_at_mean :
    readUnderlyingPrices (some [140, 160]) = (true, 150, 22600) ∧
    theoPrice
        (coefficients (Double.finite 100) (Double.finite 150) (Double.finite 0.5)
          (Double.finite 0.01)).1
        (coefficients (Double.finite 100) (Double.finite 150) (Double.finite 0.5)
          (Double.finite 0.01)).2.1
        (coefficients (Double.finite 100) (Double.finite 150) (Double.finite 0.5)
          (Double.finite 0.01)).2.2
        150 22600 = Double.finite 100.5 ∧
    (100 + 0.5 * (150 - 150) + 0.5 * 0.01 * (150 - 150) ^ 2 : ℚ) = 100 ∧
    theoPrice
        (coefficients (Double.finite 100) (Double.finite 150) (Double.finite 0.5)
          (Double.finite 0.01)).1
        (coefficients (Double.finite 100) (Double.finite 150) (Double.finite 0.5)
          (Double.finite 0.01)).2.1
        (coefficients (Double.finite 100) (Double.finite 150) (Double.finite 0.5)
          (Double.finite 0.01)).2.2
        150 22600
      ≠ Double.finite (100 + 0.5 * (150 - 150) + 0.5 * 0.01 * (150 - 150) ^ 2) := by
  have hp : theoPrice
        (coefficients (Double.finite 100) (Double.finite 150) (Double.finite 0.5)
          (Double.finite 0.01)).1
        (coefficients (Double.finite 100) (Double.finite 150) (Double.finite 0.5)
          (Double.finite 0.01)).2.1
        (coefficients (Double.finite 100) (Double.finite 150) (Double.finite 0.5)
          (Double.finite 0.01)).2.2
        150 22600 = Double.finite 100.5 := by
    rw [coefficients_finite, theoPrice_finite]
    norm_num
  refine ⟨?_, hp, by norm_num, ?_⟩
  · rw [readUnderlyingPrices_of_ne_nil [140, 160] (by simp)]
    norm_num
  · rw [hp]
    intro h
    injection h with h
    norm_num at h

/-- C3, amended: in exact arithmetic the worker's price `A + mean*B +
meanOfSquares*C` is the quadratic `refTheo + delta*(mean - refUp) +
0.5*gamma*(mean - refUp)^2` plus the term `0.5*gamma*(meanOfSquares - mean^2)`,
for all statistics. -/
theorem price_eq_quadratic_plus_variance_term
    (refTheo refUp delta gamma mean meanOfSquares : ℚ) :
    theoPrice
        (coefficients (Double.finite refTheo) (Double.finite refUp) (Double.finite delta)
          (Double.finite gamma)).1
        (coefficients (Double.finite refTheo) (Double.finite refUp) (Double.finite delta)
          (Double.finite gamma)).2.1
        (coefficients (Double.finite refTheo) (Double.finite refUp) (Double.finite delta)
          (Double.finite gamma)).2.2
        mean meanOfSquares
      = Double.finite (refTheo + delta * (mean - refUp) + 0.5 * gamma * (mean - refUp) ^ 2
          + 0.5 * gamma * (meanOfSquares - mean ^ 2)) := by
  rw [coefficients_finite, theoPrice_finite]
  congr 1
  norm_num
  ring

/-! ## `find`, spans and the fields of a line -/

/-- The search of `find` started right after `pre` stops at the first `c`. -/
theorem find_eq_some (line pre f rest : List Char) (c : Char) (pos : Nat)
    (hl : line = pre ++ (f ++ c :: rest)) (hp : pos = pre.length) (hc : c ∉ f) :
    find line c pos = some (pos + f.length) := by
  subst hl hp
  have hi : List.indexOf c (f ++ c :: rest) = f.length := by
    rw [List.indexOf_append_of_not_mem hc, List.indexOf_cons_self, Nat.add_zero]
  simp [find, hi]

/-- The search of `find` fails when no `c` follows the start position. -/
theorem find_eq_none (line pre f : List Char) (c : Char) (pos : Nat)
    (hl : line = pre ++ f) (hp : pos = pre.length) (hc : c ∉ f) :
    find line c pos = none := by
  subst hl hp
  have hi : List.indexOf c f = f.length := List.indexOf_eq_length.mpr hc
  simp [find, hi]

/-- The span between two offsets of a line cut in three. -/
theorem spanOf_eq (line pre f rest : List Char) (s e : Nat)
    (hl : line = pre ++ (f ++ rest)) (hs : s = pre.length) (he : e = s + f.length) :
    spanOf line s e = f := by
  subst hl hs he
  simp [spanOf]

/-- A list that contains `c` splits at the first `c`. -/
theorem exists_first_split (c : Char) (l : List Char) (h : c ∈ l) :
    ∃ f rest, l = f ++ c :: rest ∧ c ∉ f := by
  induction l with
  | nil => simp at h
  | cons a t ih =>
    by_cases hac : a = c
    · exact ⟨[], t, by simp [hac], by simp⟩
    · have ht : c ∈ t := by
        rcases List.mem_cons.mp h with h1 | h1
        · exact absurd h1.symm hac
        · exact h1
      obtain ⟨f, rest, hf, hn⟩ := ih ht
      refine ⟨a :: f, rest, by simp [hf], ?_⟩
      intro hm
      rcases List.mem_cons.mp hm with h1 | h1
      · exact hac h1.symm
      · exact hn h1

/-- The record `lineToInstrument` builds from the four parsed values. -/
theorem lineToInstrument_fields (name f1 f2 f3 f4 : List Char)
    (h0 : ',' ∉ name) (h1 : ',' ∉ f1) (h2 : ',' ∉ f2) (h3 : ',' ∉ f3) :
    lineToInstrument (name ++ ',' :: (f1 ++ ',' :: (f2 ++ ',' :: (f3 ++ ',' :: f4))))
      = if (parseDouble f1).1 = true ∧ (parseDouble f2).1 = true ∧
            (parseDouble f3).1 = true ∧ (parseDouble f4).1 = true then
          some
            { name_ := name
              A_ := (coefficients (parseDouble f1).2 (parseDouble f2).2 (parseDouble f3).2
                      (parseDouble f4).2).1
              B_ := (coefficients (parseDouble f1).2 (parseDouble f2).2 (parseDouble f3).2
                      (parseDouble f4).2).2.1
              C_ := (coefficients (parseDouble f1).2 (parseDouble f2).2 (parseDouble f3).2
                      (parseDouble f4).2).2.2 }
        else none := by
  generalize hline : name ++ ',' :: (f1 ++ ',' :: (f2 ++ ',' :: (f3 ++ ',' :: f4))) = line
  have e1 : find line ',' 0 = some name.length := by
    have := find_eq_some line [] name (f1 ++ ',' :: (f2 ++ ',' :: (f3 ++ ',' :: f4))) ',' 0
      (by simp [← hline]) rfl h0
    simpa using this
  have e2 : find line ',' (name.length + 1) = some (name.length + 1 + f1.length) :=
    find_eq_some line (name ++ [',']) f1 (f2 ++ ',' :: (f3 ++ ',' :: f4)) ','
      (name.length + 1) (by simp [← hline]) (by simp) h1
  have e3 : find line ',' (name.length + 1 + f1.length + 1)
      = some (name.length + 1 + f1.length + 1 + f2.length) :=
    find_eq_some line (name ++ ',' :: (f1 ++ [','])) f2 (f3 ++ ',' :: f4) ','
      (name.length + 1 + f1.length + 1) (by simp [← hline])
      (by simp; omega) h2
  have e4 : find line ',' (name.length + 1 + f1.length + 1 + f2.length + 1)
      = some (name.length + 1 + f1.length + 1 + f2.length + 1 + f3.length) :=
    find_eq_some line (name ++ ',' :: (f1 ++ ',' :: (f2 ++ [',']))) f3 f4 ','
      (name.length + 1 + f1.length + 1 + f2.length + 1) (by simp [← hline])
      (by simp; omega) h3
  have s1 : spanOf line (name.length + 1) (name.length + 1 + f1.length) = f1 :=
    spanOf_eq line (name ++ [',']) f1 (',' :: (f2 ++ ',' :: (f3 ++ ',' :: f4))) _ _
      (by simp [← hline]) (by simp) rfl
  have s2 : spanOf line (name.length + 1 + f1.length + 1)
      (name.length + 1 + f1.length + 1 + f2.length) = f2 :=
    spanOf_eq line (name ++ ',' :: (f1 ++ [','])) f2 (',' :: (f3 ++ ',' :: f4)) _ _
      (by simp [← hline]) (by simp; omega) rfl
  have s3 : spanOf line (name.length + 1 + f1.length + 1 + f2.length + 1)
      (name.length + 1 + f1.length + 1 + f2.length + 1 + f3.length) = f3 :=
    spanOf_eq line (name ++ ',' :: (f1 ++ ',' :: (f2 ++ [',']))) f3 (',' :: f4) _ _
      (by simp [← hline]) (by simp; omega) rfl
  have hlen : line.length
      = name.length + 1 + f1.length + 1 + f2.length + 1 + f3.length + 1 + f4.length := by
    simp [← hline]; omega
  have s4 : spanOf line (name.length + 1 + f1.length + 1 + f2.length + 1 + f3.length + 1)
      line.length = f4 :=
    spanOf_eq line (name ++ ',' :: (f1 ++ ',' :: (f2 ++ ',' :: (f3 ++ [','])))) f4 [] _ _
      (by simp [← hline]) (by simp; omega) (by rw [hlen])
  have hname : line.take name.length = name := by simp [← hline]
  simp only [lineToInstrument, e1, e2, e3, e4, s1, s2, s3, s4, hname]
  cases (parseDouble f1).1 <;> cases (parseDouble f2).1 <;> cases (parseDouble f3).1 <;>
    cases (parseDouble f4).1 <;> simp

/-- A line with fewer than four commas is rejected: one of the four calls of
`find` returns `npos`. -/
theorem lineToInstrument_eq_none_of_count_lt (line : List Char)
    (h : line.count ',' < 4) : lineToInstrument line = none := by
  by_cases m0 : ',' ∈ line
  swap
  · have e1 : find line ',' 0 = none := find_eq_none line [] line ',' 0 rfl rfl m0
    simp [lineToInstrument, e1]
  obtain ⟨name, r1, rfl, h0⟩ := exists_first_split ',' line m0
  have e1 : find (name ++ ',' :: r1) ',' 0 = some name.length := by
    have := find_eq_some (name ++ ',' :: r1) [] name r1 ',' 0 rfl rfl h0
    simpa using this
  by_cases m1 : ',' ∈ r1
  swap
  · have e2 : find (name ++ ',' :: r1) ',' (name.length + 1) = none :=
      find_eq_none _ (name ++ [',']) r1 ',' _ (by simp) (by simp) m1
    simp [lineToInstrument, e1, e2]
  obtain ⟨f1, r2, rfl, h1⟩ := exists_first_split ',' r1 m1
  have e2 : find (name ++ ',' :: (f1 ++ ',' :: r2)) ',' (name.length + 1)
      = some (name.length + 1 + f1.length) :=
    find_eq_some _ (name ++ [',']) f1 r2 ',' _ (by simp) (by simp) h1
  by_cases m2 : ',' ∈ r2
  swap
  · have e3 : find (name ++ ',' :: (f1 ++ ',' :: r2)) ',' (name.length + 1 + f1.length + 1)
        = none :=
      find_eq_none _ (name ++ ',' :: (f1 ++ [','])) r2 ',' _ (by simp) (by simp; omega) m2
    simp [lineToInstrument, e1, e2, e3]
  obtain ⟨f2, r3, rfl, h2⟩ := exists_first_split ',' r2 m2
  have e3 : find (name ++ ',' :: (f1 ++ ',' :: (f2 ++ ',' :: r3))) ','
      (name.length + 1 + f1.length + 1) = some (name.length + 1 + f1.length + 1 + f2.length) :=
    find_eq_some _ (name ++ ',' :: (f1 ++ [','])) f2 r3 ',' _ (by simp) (by simp; omega) h2
  by_cases m3 : ',' ∈ r3
  swap
  · have e4 : find (name ++ ',' :: (f1 ++ ',' :: (f2 ++ ',' :: r3))) ','
        (name.length + 1 + f1.length + 1 + f2.length + 1) = none :=
      find_eq_none _ (name ++ ',' :: (f1 ++ ',' :: (f2 ++ [',']))) r3 ',' _ (by simp)
        (by simp; omega) m3
    simp [lineToInstrument, e1, e2, e3, e4]
  obtain ⟨f3, f4, rfl, h3⟩ := exists_first_split ',' r3 m3
  exfalso
  simp only [List.count_append, List.count_cons_self] at h
  omega

/-- A line with at least four commas is cut by its first four commas into a
name, three comma-free fields and the rest of the line. -/
theorem exists_fields_of_count_ge (line : List Char) (h : 4 ≤ line.count ',') :
    ∃ name f1 f2 f3 f4, ',' ∉ name ∧ ',' ∉ f1 ∧ ',' ∉ f2 ∧ ',' ∉ f3 ∧
      line = name ++ ',' :: (f1 ++ ',' :: (f2 ++ ',' :: (f3 ++ ',' :: f4))) ∧
      line.count ',' = 4 + f4.count ',' := by
  have pos_mem : ∀ l : List Char, 0 < l.count ',' → ',' ∈ l := fun l hl =>
    List.count_pos_iff.mp hl
  obtain ⟨name, r1, rfl, h0⟩ := exists_first_split ',' line (pos_mem _ (by omega))
  have c0 := List.count_eq_zero_of_not_mem h0
  simp only [List.count_append, List.count_cons_self, c0] at h
  obtain ⟨f1, r2, rfl, h1⟩ := exists_first_split ',' r1 (pos_mem _ (by omega))
  have c1 := List.count_eq_zero_of_not_mem h1
  simp only [List.count_append, List.count_cons_self, c1] at h
  obtain ⟨f2, r3, rfl, h2⟩ := exists_first_split ',' r2 (pos_mem _ (by omega))
  have c2 := List.count_eq_zero_of_not_mem h2
  simp only [List.count_append, List.count_cons_self, c2] at h
  obtain ⟨f3, f4, rfl, h3⟩ := exists_first_split ',' r3 (pos_mem _ (by omega))
  have c3 := List.count_eq_zero_of_not_mem h3
  refine ⟨name, f1, f2, f3, f4, h0, h1, h2, h3, rfl, ?_⟩
  simp only [List.count_append, List.count_cons_self, c0, c1, c2, c3]
  omega

/-- A rejected line leaves the batch of the producer as it is and causes no
write and no push. -/
theorem readerStep_of_rejected (st : ReaderState) (line : List Char)
    (h : lineToInstrument line = none) :
    (readerStep st line).1.currentBatch = st.currentBatch ∧ (readerStep st line).2 = [] := by
  unfold readerStep
  split
  · exact ⟨rfl, rfl⟩
  · simp [h]

/-- C5: every line with fewer than four comma characters (the empty line
included) makes `lineToInstrument` return failure, and `readTheoData` then adds
no record to its batch and pushes nothing. -/
theorem lineToInstrument_rejects_fewer_than_four_commas (line : List Char)
    (h : line.count ',' < 4) :
    lineToInstrument line = none ∧
    ∀ st : ReaderState,
      (readerStep st line).1.currentBatch = st.currentBatch ∧ (readerStep st line).2 = [] :=
  ⟨lineToInstrument_eq_none_of_count_lt line h,
   fun st => readerStep_of_rejected st line (lineToInstrument_eq_none_of_count_lt line h)⟩

/-- C5 on the sample line of the specification, `AAPL,100.0,150.0,0.5`, which
has three commas. -/
theorem lineToInstrument_rejects_fewer_than_four_commas_witness :
    "AAPL,100.0,150.0,0.5".toList.count ',' < 4 ∧
    lineToInstrument "AAPL,100.0,150.0,0.5".toList = none :=
  ⟨by decide, (lineToInstrument_rejects_fewer_than_four_commas _ (by decide)).1⟩

/-! ## `parseDouble` on spans that fit the buffer -/

/-- On a span shorter than the buffer and free of NUL characters `parseDouble`
hands the whole span to `strtod`. -/
theorem parseDouble_of_short (f : List Char) (hlen : f.length < BUFF_SIZE)
    (hnul : ∀ c ∈ f, c.toNat ≠ 0) :
    parseDouble f = (((strtod f).2.dropWhile isspace).isEmpty, (strtod f).1) := by
  have h1 : ¬ f.length ≥ BUFF_SIZE := by omega
  have h2 : f.takeWhile (fun c => decide (c.toNat ≠ 0)) = f := by
    rw [List.takeWhile_eq_self_iff]
    intro c hc
    simpa using hnul c hc
  simp only [parseDouble, h1, if_false, List.take_length, h2]

/-- Characters below `A` are unchanged by `tolower`. -/
theorem tolower_of_lt (c : Char) (h : c.toNat < 65) : tolower c = c := by
  unfold tolower
  rw [if_neg]
  omega

/-- A string whose characters all lie below `A` starts with none of the words
`inf`, `infinity`, `nan`. -/
theorem strtodSpecial_of_lt (s : List Char) (h : ∀ c ∈ s, c.toNat < 65) :
    strtodSpecial s = none := by
  have key : ∀ p : List Char, (∀ x t, p = x :: t → 65 ≤ x.toNat) → p ≠ [] →
      startsWithCI p s = false := by
    intro p hp hne
    cases p with
    | nil => exact absurd rfl hne
    | cons x t =>
      cases s with
      | nil => simp [startsWithCI]
      | cons c u =>
        have hx := hp x t rfl
        have hc := h c (List.mem_cons_self c u)
        simp only [startsWithCI, List.length_cons, List.take_succ_cons, List.map_cons,
          decide_eq_false_iff_not]
        intro heq
        injection heq with h1 _
        rw [tolower_of_lt c hc] at h1
        rw [h1] at hc
        omega
  have k1 := key "infinity".toList (by intro x t e; injection e with e1 _; subst e1; decide)
    (by decide)
  have k2 := key "inf".toList (by intro x t e; injection e with e1 _; subst e1; decide)
    (by decide)
  have k3 := key "nan".toList (by intro x t e; injection e with e1 _; subst e1; decide)
    (by decide)
  unfold strtodSpecial
  rw [k1, k2, k3]
  rfl

/-- A string whose characters all lie below `A` has no `0x` prefix. -/
theorem strtodHex_of_lt (s : List Char) (h : ∀ c ∈ s, c.toNat < 65) :
    strtodHex s = none := by
  unfold strtodHex
  split
  · rename_i z x t
    have hx := h x (by simp)
    have : tolower x ≠ 'x' := by
      rw [tolower_of_lt x hx]
      intro e
      rw [e] at hx
      revert hx
      decide
    simp [this]
  · rfl

/-- A run of characters satisfying `p` is what `takeWhile p` takes of itself. -/
theorem takeWhile_all (p : Char → Bool) (l : List Char) (h : ∀ c ∈ l, p c = true) :
    l.takeWhile p = l ∧ l.dropWhile p = [] := by
  induction l with
  | nil => exact ⟨rfl, rfl⟩
  | cons a t ih =>
    have ha := h a (List.mem_cons_self a t)
    obtain ⟨i1, i2⟩ := ih (fun c hc => h c (List.mem_cons_of_mem a hc))
    exact ⟨by rw [List.takeWhile_cons_of_pos ha, i1], by rw [List.dropWhile_cons_of_pos ha, i2]⟩

/-- A run of characters satisfying `p`, followed by a list that is empty or
starts with a character failing `p`, is split at the end of the run. -/
theorem takeWhile_run (p : Char → Bool) (l r : List Char) (h : ∀ c ∈ l, p c = true)
    (hr : r.takeWhile p = []) :
    (l ++ r).takeWhile p = l ∧ (l ++ r).dropWhile p = r := by
  induction l with
  | nil =>
    refine ⟨by simpa using hr, ?_⟩
    cases r with
    | nil => rfl
    | cons a t =>
      by_cases ha : p a = true
      · rw [List.takeWhile_cons_of_pos ha] at hr
        exact absurd hr (by simp)
      · simp [List.dropWhile_cons, ha]
  | cons a t ih =>
    have ha := h a (List.mem_cons_self a t)
    obtain ⟨i1, i2⟩ := ih (fun c hc => h c (List.mem_cons_of_mem a hc))
    refine ⟨?_, ?_⟩
    · rw [List.cons_append, List.takeWhile_cons_of_pos ha, i1]
    · rw [List.cons_append, List.dropWhile_cons_of_pos ha, i2]

/-- The mantissa of a plain decimal literal without its sign. -/
theorem strtodMantissa_decimal (ip fp : List Char) (point : Bool)
    (h1 : ∀ c ∈ ip, isdigit c = true) (h2 : ∀ c ∈ fp, isdigit c = true)
    (h3 : ip ≠ [] ∨ fp ≠ []) (h4 : point = false → fp = []) :
    strtodMantissa isdigit (ip ++ (if point then '.' :: fp else [])) = some (ip, fp, []) := by
  have hdot : isdigit '.' = false := by decide
  cases point with
  | false =>
    have hfp : fp = [] := h4 rfl
    subst hfp
    have hip : ip ≠ [] := by
      rcases h3 with h | h
      · exact h
      · exact absurd rfl h
    obtain ⟨t1, t2⟩ := takeWhile_all isdigit ip h1
    simp [strtodMantissa, t1, t2, hip]
  | true =>
    obtain ⟨t1, t2⟩ := takeWhile_run isdigit ip ('.' :: fp) h1
      (by simp [List.takeWhile_cons, hdot])
    obtain ⟨u1, u2⟩ := takeWhile_all isdigit fp h2
    have hne : ¬ (ip = [] ∧ fp = []) := by
      rintro ⟨a, b⟩
      rcases h3 with h | h
      · exact h a
      · exact h b
    simp only [strtodMantissa, if_true, t1, t2, u1, u2]
    rw [if_neg hne]

/-- A negative power of ten in `scale` is a division. -/
theorem scale_neg_length (m n : Nat) : scale m 10 (0 - (n : Int)) = (m : ℚ) / 10 ^ n := by
  unfold scale
  by_cases h : n = 0
  · subst h
    simp
  · have : ¬ (0 : Int) ≤ 0 - (n : Int) := by omega
    rw [if_neg this]
    simp

/-- Every character of a plain decimal literal lies below `A`, is not NUL and
is not a comma. -/
theorem DecimalLiteral.text_chars (d : DecimalLiteral) (hw : d.WellFormed) :
    ∀ c ∈ d.text, c.toNat < 65 ∧ c.toNat ≠ 0 ∧ c ≠ ',' := by
  have hdig : ∀ c : Char, isdigit c = true → c.toNat < 65 ∧ c.toNat ≠ 0 ∧ c ≠ ',' := by
    intro c hc
    simp only [isdigit, Bool.and_eq_true, decide_eq_true_eq] at hc
    refine ⟨by omega, by omega, ?_⟩
    intro e
    rw [e] at hc
    revert hc
    decide
  intro c hc
  simp only [DecimalLiteral.text, List.mem_append] at hc
  rcases hc with (hc | hc) | hc
  · rcases hs : d.sign with _ | b
    · simp [hs] at hc
    · cases b <;> simp [hs] at hc <;> subst hc <;> decide
  · exact hdig c (hw.1 c hc)
  · cases hp : d.point
    · simp [hp] at hc
    · simp only [hp, if_true, List.mem_cons] at hc
      rcases hc with hc | hc
      · subst hc; decide
      · exact hdig c (hw.2.1 c hc)

/-- The sign of a string that starts with neither `-` nor `+`. -/
theorem strtodSign_of_ne (c : Char) (t : List Char) (h1 : c ≠ '-') (h2 : c ≠ '+') :
    strtodSign (c :: t) = (false, c :: t) := by
  unfold strtodSign
  split
  · rename_i u e; injection e with e1 _; exact absurd e1 h1
  · rename_i u e; injection e with e1 _; exact absurd e1 h2
  · rfl

/-- Function `strtod` on a plain decimal literal: the whole text is read and the
value is the number the literal denotes. -/
theorem strtod_decimalLiteral (d : DecimalLiteral) (hw : d.WellFormed) :
    strtod d.text = (Double.finite d.value, []) := by
  obtain ⟨h1, h2, h3, h4⟩ := hw
  -- the unsigned part
  generalize hbody : d.intDigits ++ (if d.point then '.' :: d.fracDigits else []) = body
  have hman : strtodMantissa isdigit body = some (d.intDigits, d.fracDigits, []) := by
    rw [← hbody]; exact strtodMantissa_decimal _ _ _ h1 h2 h3 h4
  have hlt : ∀ c ∈ body, c.toNat < 65 := by
    intro c hc
    have := DecimalLiteral.text_chars d ⟨h1, h2, h3, h4⟩ c
      (by simp only [DecimalLiteral.text, List.append_assoc, hbody]
          exact List.mem_append_right _ hc)
    exact this.1
  have hdec : strtodDecimal body
      = some (Double.finite
          ((digitsVal 10 (d.intDigits ++ d.fracDigits) : ℚ) / 10 ^ d.fracDigits.length), []) := by
    simp only [strtodDecimal, hman, strtodExponent, scale_neg_length]
  have hsp := strtodSpecial_of_lt body hlt
  have hhex := strtodHex_of_lt body hlt
  have hne : body ≠ [] := by
    rw [← hbody]
    rcases h3 with h | h
    · simp [h]
    · have hp : d.point = true := by
        cases hp : d.point
        · exact absurd (h4 hp) h
        · rfl
      simp [hp]
  obtain ⟨c, t, hct⟩ := List.exists_cons_of_ne_nil hne
  have hc := hlt c (by rw [hct]; exact List.mem_cons_self c t)
  have hcd : isdigit c = true ∨ c = '.' := by
    have hmem : c ∈ d.intDigits ++ (if d.point then '.' :: d.fracDigits else []) := by
      rw [hbody, hct]; exact List.mem_cons_self c t
    rcases List.mem_append.mp hmem with hm | hm
    · exact Or.inl (h1 c hm)
    · cases hp : d.point
      · simp [hp] at hm
      · simp only [hp, if_true, List.mem_cons] at hm
        rcases hm with hm | hm
        · exact Or.inr hm
        · exact Or.inl (h2 c hm)
  have hcs : isspace c = false ∧ c ≠ '-' ∧ c ≠ '+' := by
    rcases hcd with h | h
    · simp only [isdigit, Bool.and_eq_true, decide_eq_true_eq] at h
      refine ⟨?_, ?_, ?_⟩
      · simp only [isspace, Bool.or_eq_false_iff, decide_eq_false_iff_not, Bool.and_eq_false_iff]
        omega
      · intro e; rw [e] at h; revert h; decide
      · intro e; rw [e] at h; revert h; decide
    · subst h; decide
  have hsign : strtodSign body = (false, body) := by
    rw [hct]; exact strtodSign_of_ne c t hcs.2.1 hcs.2.2
  have hdrop : body.dropWhile isspace = body := by
    rw [hct, List.dropWhile_cons, hcs.1]; rfl
  rcases hs : d.sign with _ | b
  · have ht : d.text = body := by simp [DecimalLiteral.text, hs, hbody]
    rw [ht]
    simp only [strtod, hdrop, hsign, hsp, hhex, hdec, DecimalLiteral.value, hs]
    simp
  · cases b
    · have ht : d.text = '+' :: body := by simp [DecimalLiteral.text, hs, hbody]
      have hd2 : ('+' :: body).dropWhile isspace = '+' :: body := by
        rw [List.dropWhile_cons]; rfl
      rw [ht]
      simp only [strtod, hd2, strtodSign, hsp, hhex, hdec, DecimalLiteral.value, hs]
      simp
    · have ht : d.text = '-' :: body := by simp [DecimalLiteral.text, hs, hbody]
      have hd2 : ('-' :: body).dropWhile isspace = '-' :: body := by
        rw [List.dropWhile_cons]; rfl
      rw [ht]
      simp only [strtod, hd2, strtodSign, hsp, hhex, hdec, DecimalLiteral.value, hs]
      simp [Double.neg]

/-- Function `parseDouble` accepts a plain decimal literal that fits the buffer
and yields its value. -/
theorem parseDouble_decimalLiteral (d : DecimalLiteral) (hw : d.WellFormed)
    (hlen : d.text.length < BUFF_SIZE) :
    parseDouble d.text = (true, Double.finite d.value) := by
  rw [parseDouble_of_short d.text hlen (fun c hc => (DecimalLiteral.text_chars d hw c hc).2.1),
    strtod_decimalLiteral d hw]
  rfl

/-- C4: a line `name,refTheo,refUp,delta,gamma` whose name has no comma and whose
four numeric fields are plain decimal literals shorter than 48 characters is
accepted by `lineToInstrument`; the record has the name verbatim and the
constants `A`, `B`, `C` computed by the formulas of lines 66-68 from the four
values the literals denote. -/
theorem lineToInstrument_accepts_plain_decimals (name : List Char)
    (refTheo refUp delta gamma : DecimalLiteral)
    (hname : ',' ∉ name)
    (w1 : refTheo.WellFormed) (w2 : refUp.WellFormed) (w3 : delta.WellFormed)
    (w4 : gamma.WellFormed)
    (l1 : refTheo.text.length < 48) (l2 : refUp.text.length < 48)
    (l3 : delta.text.length < 48) (l4 : gamma.text.length < 48) :
    lineToInstrument
        (name ++ ',' :: (refTheo.text ++ ',' :: (refUp.text ++ ',' ::
          (delta.text ++ ',' :: gamma.text))))
      = some
          { name_ := name
            A_ := Double.finite (refTheo.value - delta.value * refUp.value
                    + 0.5 * gamma.value * (refUp.value * refUp.value))
            B_ := Double.finite (delta.value - gamma.value * refUp.value)
            C_ := Double.finite (0.5 * gamma.value) } := by
  have c1 : ',' ∉ refTheo.text := fun h => (DecimalLiteral.text_chars _ w1 _ h).2.2 rfl
  have c2 : ',' ∉ refUp.text := fun h => (DecimalLiteral.text_chars _ w2 _ h).2.2 rfl
  have c3 : ',' ∉ delta.text := fun h => (DecimalLiteral.text_chars _ w3 _ h).2.2 rfl
  rw [lineToInstrument_fields name _ _ _ _ hname c1 c2 c3,
    parseDouble_decimalLiteral _ w1 l1, parseDouble_decimalLiteral _ w2 l2,
    parseDouble_decimalLiteral _ w3 l3, parseDouble_decimalLiteral _ w4 l4,
    coefficients_finite]
  norm_num

/-- C4 on the sample line of the specification: `AAPL,100.0,150.0,0.5,0.01` is
accepted with name `AAPL` and `A = 137.5`, `B = -1`, `C = 0.005`. -/
theorem lineToInstrument_accepts_plain_decimals_witness :
    lineToInstrument "AAPL,100.0,150.0,0.5,0.01".toList
      = some
          { name_ := "AAPL".toList
            A_ := Double.finite 137.5
            B_ := Double.finite (-1)
            C_ := Double.finite 0.005 } := by
  have h := lineToInstrument_accepts_plain_decimals "AAPL".toList
    ⟨none, "100".toList, true, "0".toList⟩ ⟨none, "150".toList, true, "0".toList⟩
    ⟨none, "0".toList, true, "5".toList⟩ ⟨none, "0".toList, true, "01".toList⟩
    (by decide) (by decide) (by decide) (by decide) (by decide)
    (by decide) (by decide) (by decide) (by decide)
  have e : ("AAPL".toList ++ ',' :: ((⟨none, "100".toList, true, "0".toList⟩ : DecimalLiteral).text
      ++ ',' :: ((⟨none, "150".toList, true, "0".toList⟩ : DecimalLiteral).text ++ ',' ::
        ((⟨none, "0".toList, true, "5".toList⟩ : DecimalLiteral).text ++ ',' ::
          (⟨none, "0".toList, true, "01".toList⟩ : DecimalLiteral).text))))
      = "AAPL,100.0,150.0,0.5,0.01".toList := by decide
  have d1 : digitsVal 10 ("100".toList ++ "0".toList) = 1000 := by decide
  have d2 : digitsVal 10 ("150".toList ++ "0".toList) = 1500 := by decide
  have d3 : digitsVal 10 ("0".toList ++ "5".toList) = 5 := by decide
  have d4 : digitsVal 10 ("0".toList ++ "01".toList) = 1 := by decide
  rw [e] at h
  rw [h]
  simp only [DecimalLiteral.value, d1, d2, d3, d4, reduceCtorEq, if_false]
  norm_num

/-! ## What `strtod` leaves unread -/

/-- A character failing `p` survives `dropWhile p`. -/
theorem mem_dropWhile_of_not (p : Char → Bool) (c : Char) (hp : p c = false) (l : List Char)
    (h : c ∈ l) : c ∈ l.dropWhile p := by
  induction l with
  | nil => simp at h
  | cons a t ih =>
    by_cases ha : p a = true
    · rw [List.dropWhile_cons_of_pos ha]
      rcases List.mem_cons.mp h with h1 | h1
      · rw [h1, ha] at hp; exact absurd hp (by simp)
      · exact ih h1
    · rw [List.dropWhile_cons_of_neg ha]
      exact h

/-- The sign is never a comma. -/
theorem comma_mem_strtodSign (s : List Char) (h : ',' ∈ s) : ',' ∈ (strtodSign s).2 := by
  unfold strtodSign
  split
  · rcases List.mem_cons.mp h with h1 | h1
    · exact absurd h1 (by decide)
    · exact h1
  · rcases List.mem_cons.mp h with h1 | h1
    · exact absurd h1 (by decide)
    · exact h1
  · exact h

/-- The mantissa never reads a comma. -/
theorem comma_mem_strtodMantissa (isd : Char → Bool) (hd : isd ',' = false)
    (s ip fp r : List Char) (hm : strtodMantissa isd s = some (ip, fp, r)) (h : ',' ∈ s) :
    ',' ∈ r := by
  have h1 : ',' ∈ s.dropWhile isd := mem_dropWhile_of_not isd ',' hd s h
  unfold strtodMantissa at hm
  dsimp only at hm
  split at hm
  · exact absurd hm (by simp)
  · simp only [Option.some.injEq, Prod.mk.injEq] at hm
    obtain ⟨_, _, hr⟩ := hm
    rw [← hr]
    split
    · rename_i t e
      rw [e] at h1
      rcases List.mem_cons.mp h1 with h2 | h2
      · exact absurd h2 (by decide)
      · exact mem_dropWhile_of_not isd ',' hd t h2
    · exact h1

/-- The exponent part never reads a comma. -/
theorem comma_mem_strtodExponent (marker : Char) (hmk : marker ≠ ',') (s : List Char)
    (h : ',' ∈ s) : ',' ∈ (strtodExponent marker s).2 := by
  unfold strtodExponent
  split
  · exact h
  · rename_i m t
    split
    · rename_i hm
      have hmc : m ≠ ',' := by
        intro e
        rw [e] at hm
        exact hmk (hm.symm.trans (by decide))
      have ht : ',' ∈ t := by
        rcases List.mem_cons.mp h with h1 | h1
        · exact absurd h1.symm hmc
        · exact h1
      dsimp only
      split
      · exact h
      · exact mem_dropWhile_of_not isdigit ',' (by decide) _ (comma_mem_strtodSign t ht)
    · exact h

/-- A decimal constant never reads a comma. -/
theorem comma_mem_strtodDecimal (s : List Char) (v : Double) (r : List Char)
    (hs : strtodDecimal s = some (v, r)) (h : ',' ∈ s) : ',' ∈ r := by
  unfold strtodDecimal at hs
  split at hs
  · exact absurd hs (by simp)
  · rename_i ip fp r0 hm
    simp only [Option.some.injEq, Prod.mk.injEq] at hs
    rw [← hs.2]
    exact comma_mem_strtodExponent 'e' (by decide) r0
      (comma_mem_strtodMantissa isdigit (by decide) s ip fp r0 hm h)

/-- A hexadecimal constant never reads a comma. -/
theorem comma_mem_strtodHex (s : List Char) (v : Double) (r : List Char)
    (hs : strtodHex s = some (v, r)) (h : ',' ∈ s) : ',' ∈ r := by
  unfold strtodHex at hs
  split at hs
  · rename_i z x t
    split at hs
    · rename_i hzx
      have hz : z ≠ ',' := by rw [hzx.1]; decide
      have hx : x ≠ ',' := by
        intro e
        have := hzx.2
        rw [e] at this
        revert this
        decide
      have ht : ',' ∈ t := by
        rcases List.mem_cons.mp h with h1 | h1
        · exact absurd h1.symm hz
        · rcases List.mem_cons.mp h1 with h2 | h2
          · exact absurd h2.symm hx
          · exact h2
      split at hs
      · exact absurd hs (by simp)
      · rename_i ip fp r0 hm
        simp only [Option.some.injEq, Prod.mk.injEq] at hs
        rw [← hs.2]
        exact comma_mem_strtodExponent 'p' (by decide) r0
          (comma_mem_strtodMantissa isxdigit (by decide) t ip fp r0 hm ht)
    · exact absurd hs (by simp)
  · exact absurd hs (by simp)

/-- A comma is not among the characters matched against a comma-free word. -/
theorem comma_mem_drop_of_startsWithCI (p s : List Char) (hp : ',' ∉ p)
    (hs : startsWithCI p s = true) (h : ',' ∈ s) : ',' ∈ s.drop p.length := by
  have hsplit : s = s.take p.length ++ s.drop p.length := (List.take_append_drop _ _).symm
  rw [hsplit] at h
  rcases List.mem_append.mp h with h1 | h1
  · exfalso
    apply hp
    simp only [startsWithCI, decide_eq_true_eq] at hs
    rw [← hs]
    exact List.mem_map.mpr ⟨',', h1, by decide⟩
  · exact h1

/-- The words `inf`, `infinity`, `nan`, `nan(...)` never read a comma. -/
theorem comma_mem_strtodSpecial (s : List Char) (v : Double) (r : List Char)
    (hs : strtodSpecial s = some (v, r)) (h : ',' ∈ s) : ',' ∈ r := by
  unfold strtodSpecial at hs
  split at hs
  · rename_i h8
    simp only [Option.some.injEq, Prod.mk.injEq] at hs
    rw [← hs.2]
    exact comma_mem_drop_of_startsWithCI "infinity".toList s (by decide) h8 h
  · split at hs
    · rename_i h3
      simp only [Option.some.injEq, Prod.mk.injEq] at hs
      rw [← hs.2]
      exact comma_mem_drop_of_startsWithCI "inf".toList s (by decide) h3 h
    · split at hs
      · rename_i h3
        have hd : ',' ∈ s.drop 3 :=
          comma_mem_drop_of_startsWithCI "nan".toList s (by decide) h3 h
        split at hs
        · rename_i t e
          rw [e] at hd
          have ht : ',' ∈ t := by
            rcases List.mem_cons.mp hd with h1 | h1
            · exact absurd h1 (by decide)
            · exact h1
          have hw := mem_dropWhile_of_not (fun c => c.isAlphanum || decide (c = '_')) ','
            (by decide) t ht
          split at hs
          · rename_i u e2
            simp only [Option.some.injEq, Prod.mk.injEq] at hs
            rw [← hs.2]
            rw [e2] at hw
            rcases List.mem_cons.mp hw with h1 | h1
            · exact absurd h1 (by decide)
            · exact h1
          · simp only [Option.some.injEq, Prod.mk.injEq] at hs
            rw [← hs.2, e]
            exact hd
        · simp only [Option.some.injEq, Prod.mk.injEq] at hs
          rw [← hs.2]
          exact hd
      · exact absurd hs (by simp)

/-- Function `strtod` never reads past a comma: a comma of the string is in the
unread tail. -/
theorem comma_mem_strtod_tail (s : List Char) (h : ',' ∈ s) : ',' ∈ (strtod s).2 := by
  have h0 : ',' ∈ (strtodSign (s.dropWhile isspace)).2 :=
    comma_mem_strtodSign _ (mem_dropWhile_of_not isspace ',' (by decide) s h)
  unfold strtod
  simp only
  cases h1 : strtodSpecial (strtodSign (s.dropWhile isspace)).2 with
  | some r =>
    obtain ⟨v, tl⟩ := r
    exact comma_mem_strtodSpecial _ v tl h1 h0
  | none =>
    cases h2 : strtodHex (strtodSign (s.dropWhile isspace)).2 with
    | some r =>
      obtain ⟨v, tl⟩ := r
      exact comma_mem_strtodHex _ v tl h2 h0
    | none =>
      cases h3 : strtodDecimal (strtodSign (s.dropWhile isspace)).2 with
      | some r =>
        obtain ⟨v, tl⟩ := r
        exact comma_mem_strtodDecimal _ v tl h3 h0
      | none => exact h

/-- The string `parseDouble` hands to `strtod`: the first 47 characters of the
span, up to the first NUL among them. -/
theorem parseDouble_eq (f : List Char) :
    parseDouble f
      = ((((strtod ((f.take 47).takeWhile (fun c => decide (c.toNat ≠ 0)))).2.dropWhile
            isspace).isEmpty),
         (strtod ((f.take 47).takeWhile (fun c => decide (c.toNat ≠ 0)))).1) := by
  have ht : f.take (if f.length ≥ BUFF_SIZE then BUFF_SIZE - 1 else f.length) = f.take 47 := by
    by_cases h : f.length ≥ BUFF_SIZE
    · rw [if_pos h]; rfl
    · rw [if_neg h, List.take_length]
      have : f.length ≤ 47 := by simp only [BUFF_SIZE] at h; omega
      exact (List.take_of_length_le this).symm
  simp only [parseDouble, ht]

/-- Function `parseDouble` fails when the unread tail holds a character that is
not white space. -/
theorem parseDouble_false_of_tail (f : List Char) (c : Char)
    (hc : c ∈ (strtod ((f.take 47).takeWhile (fun c => decide (c.toNat ≠ 0)))).2)
    (hs : isspace c = false) : (parseDouble f).1 = false := by
  rw [parseDouble_eq]
  have hm := mem_dropWhile_of_not isspace c hs _ hc
  cases hd : (strtod ((f.take 47).takeWhile (fun c => decide (c.toNat ≠ 0)))).2.dropWhile isspace
  · rw [hd] at hm; simp at hm
  · rfl

/-- A span shorter than the buffer and free of NUL is handed to `strtod` whole. -/
theorem take_takeWhile_of_short (f : List Char) (hlen : f.length < 48)
    (hnul : ∀ c ∈ f, c.toNat ≠ 0) :
    (f.take 47).takeWhile (fun c => decide (c.toNat ≠ 0)) = f := by
  rw [List.take_of_length_le (by omega), List.takeWhile_eq_self_iff]
  intro c hc
  simpa using hnul c hc

/-- C6, as stated for fields of every length, fails: in the line
`AAPL,100.0,150.0,0.5,0.01` followed by 43 spaces and `abc` the fourth numeric
field holds `abc` after the parsed number `0.01`, and the line is accepted,
because only the first 47 characters of the field reach `strtod`.  The same
happens for a short field when a NUL character precedes `abc`, the buffer being
read as a C string. -/
theorem long_field_with_garbage_accepted :
    4 ≤ ("AAPL,100.0,150.0,0.5,0.01".toList ++ List.replicate 43 ' ' ++ "abc".toList).count ',' ∧
    'a' ∈ (strtod ("0.01".toList ++ List.replicate 43 ' ' ++ "abc".toList)).2 ∧
    isspace 'a' = false ∧
    lineToInstrument
        ("AAPL,100.0,150.0,0.5,".toList ++
          ("0.01".toList ++ List.replicate 43 ' ' ++ "abc".toList))
      = some
          { name_ := "AAPL".toList
            A_ := Double.finite (275 / 2)
            B_ := Double.finite (-1)
            C_ := Double.finite (1 / 200) } ∧
    'a' ∈ (strtod ("0.01".toList ++ Char.ofNat 0 :: "abc".toList)).2 ∧
    lineToInstrument
        ("AAPL,100.0,150.0,0.5,".toList ++ ("0.01".toList ++ Char.ofNat 0 :: "abc".toList))
      = some
          { name_ := "AAPL".toList
            A_ := Double.finite (275 / 2)
            B_ := Double.finite (-1)
            C_ := Double.finite (1 / 200) } := by
  refine ⟨by decide, by decide, by decide, by decide!, by decide, by decide!⟩

/-- C6, amended: in a line cut by its first four commas into
`name,f1,f2,f3,f4`, if in one of the four numeric fields the first 47
characters, read up to the first NUL character among them, hold after the
number `strtod` parses at their start a character that is not white space, then
`lineToInstrument` rejects the line.  For a field shorter than 48 characters
without NUL these characters are the whole field
(`take_takeWhile_of_short`). -/
theorem lineToInstrument_rejects_trailing_garbage (name f1 f2 f3 f4 f : List Char)
    (h0 : ',' ∉ name) (h1 : ',' ∉ f1) (h2 : ',' ∉ f2) (h3 : ',' ∉ f3)
    (hf : f = f1 ∨ f = f2 ∨ f = f3 ∨ f = f4)
    (hg : ∃ c ∈ (strtod ((f.take 47).takeWhile (fun c => decide (c.toNat ≠ 0)))).2,
      isspace c = false) :
    lineToInstrument (name ++ ',' :: (f1 ++ ',' :: (f2 ++ ',' :: (f3 ++ ',' :: f4)))) = none := by
  obtain ⟨c, hc, hs⟩ := hg
  have hp : (parseDouble f).1 = false := parseDouble_false_of_tail f c hc hs
  rw [lineToInstrument_fields name f1 f2 f3 f4 h0 h1 h2 h3]
  rcases hf with e | e | e | e <;> subst e <;> simp [hp]

/-- C6 on the sample line of the specification: `AAPL,100.0,abc,0.5,0.01` is
rejected, its second numeric field being `abc`; so is the line whose second
numeric field is `abc` followed by 50 spaces, a field of 53 characters. -/
theorem lineToInstrument_rejects_trailing_garbage_witness :
    lineToInstrument "AAPL,100.0,abc,0.5,0.01".toList = none ∧
    lineToInstrument
        ("AAPL".toList ++ ',' :: ("100.0".toList ++ ',' ::
          (("abc".toList ++ List.replicate 50 ' ') ++ ',' :: ("0.5".toList ++ ',' ::
            "0.01".toList)))) = none :=
  ⟨lineToInstrument_rejects_trailing_garbage "AAPL".toList "100.0".toList "abc".toList
    "0.5".toList "0.01".toList "abc".toList (by decide) (by decide) (by decide) (by decide)
    (Or.inr (Or.inl rfl)) ⟨'a', by decide, by decide⟩,
   lineToInstrument_rejects_trailing_garbage "AAPL".toList "100.0".toList
    ("abc".toList ++ List.replicate 50 ' ') "0.5".toList "0.01".toList
    ("abc".toList ++ List.replicate 50 ' ') (by decide) (by decide) (by decide) (by decide)
    (Or.inr (Or.inl rfl)) ⟨'a', by decide, by decide⟩⟩

/-- C7, as stated, fails: the line `AAPL,100.0,150.0,0.5,0.01`, 43 spaces,
`,0.02` has five commas and is accepted, the fifth comma lying beyond the 47
characters of the last field that reach `strtod`.  So is a short line whose
fifth comma follows a NUL character. -/
theorem line_with_five_commas_accepted :
    ("AAPL,100.0,150.0,0.5,0.01".toList ++ List.replicate 43 ' ' ++ ",0.02".toList).count ','
      = 5 ∧
    lineToInstrument
        ("AAPL,100.0,150.0,0.5,0.01".toList ++ List.replicate 43 ' ' ++ ",0.02".toList)
      = some
          { name_ := "AAPL".toList
            A_ := Double.finite (275 / 2)
            B_ := Double.finite (-1)
            C_ := Double.finite (1 / 200) } ∧
    ("AAPL,100.0,150.0,0.5,0.01".toList ++ Char.ofNat 0 :: ",0.02".toList).count ',' = 5 ∧
    lineToInstrument ("AAPL,100.0,150.0,0.5,0.01".toList ++ Char.ofNat 0 :: ",0.02".toList)
      = some
          { name_ := "AAPL".toList
            A_ := Double.finite (275 / 2)
            B_ := Double.finite (-1)
            C_ := Double.finite (1 / 200) } := by
  refine ⟨by decide, by decide!, by decide, by decide!⟩

/-- C7, amended: in a line cut by its first four commas into `name,f1,f2,f3,f4`,
if a further comma occurs among the first 47 characters of `f4` with no NUL
character before it, then `lineToInstrument` rejects the line. -/
theorem lineToInstrument_rejects_fifth_comma (name f1 f2 f3 f4 : List Char)
    (h0 : ',' ∉ name) (h1 : ',' ∉ f1) (h2 : ',' ∉ f2) (h3 : ',' ∉ f3)
    (h4 : ',' ∈ (f4.take 47).takeWhile (fun c => decide (c.toNat ≠ 0))) :
    lineToInstrument (name ++ ',' :: (f1 ++ ',' :: (f2 ++ ',' :: (f3 ++ ',' :: f4)))) = none := by
  have hp : (parseDouble f4).1 = false :=
    parseDouble_false_of_tail f4 ',' (comma_mem_strtod_tail _ h4) (by decide)
  rw [lineToInstrument_fields name f1 f2 f3 f4 h0 h1 h2 h3]
  simp [hp]

/-- C7 on a line with five commas that fits the buffer: `AAPL,100.0,150.0,0.5,0.01,0.02`
is rejected. -/
theorem lineToInstrument_rejects_fifth_comma_witness :
    "AAPL,100.0,150.0,0.5,0.01,0.02".toList.count ',' = 5 ∧
    lineToInstrument "AAPL,100.0,150.0,0.5,0.01,0.02".toList = none :=
  ⟨by decide,
   lineToInstrument_rejects_fifth_comma "AAPL".toList "100.0".toList "150.0".toList
    "0.5".toList "0.01,0.02".toList (by decide) (by decide) (by decide) (by decide)
    (by decide)⟩

/-! ## The producer `readTheoData` -/

/-- C8, the failing input: the first line `AAPL,100.0,150.0,0.5,0.01` is not a
header and is accepted; the second line `INSTRUMENTS,100.0,150.0,0.5,0.01` is
accepted by `lineToInstrument`, yet `readTheoData` discards it as a header: the
only batch pushed holds the record of the first line alone.  With a header in
the first line the same second line is kept. -/
theorem readTheoData_discards_second_line :
    isHeaderLine "AAPL,100.0,150.0,0.5,0.01".toList = false ∧
    lineToInstrument "INSTRUMENTS,100.0,150.0,0.5,0.01".toList
      = some ⟨"INSTRUMENTS".toList, Double.finite (275 / 2), Double.finite (-1),
          Double.finite (1 / 200)⟩ ∧
    readTheoData (some ["AAPL,100.0,150.0,0.5,0.01".toList,
        "INSTRUMENTS,100.0,150.0,0.5,0.01".toList])
      = (true,
         [Event.write 0 ⟨"AAPL".toList, Double.finite (275 / 2), Double.finite (-1),
            Double.finite (1 / 200)⟩,
          Event.push [⟨"AAPL".toList, Double.finite (275 / 2), Double.finite (-1),
            Double.finite (1 / 200)⟩],
          Event.doneReading]) ∧
    readTheoData (some ["INSTRUMENTS".toList, "INSTRUMENTS,100.0,150.0,0.5,0.01".toList])
      = (true,
         [Event.write 0 ⟨"INSTRUMENTS".toList, Double.finite (275 / 2), Double.finite (-1),
            Double.finite (1 / 200)⟩,
          Event.push [⟨"INSTRUMENTS".toList, Double.finite (275 / 2), Double.finite (-1),
            Double.finite (1 / 200)⟩],
          Event.doneReading]) := by
  refine ⟨by decide, by decide!, by decide!, by decide!⟩

/-- The pushed batches of two event lists in sequence. -/
theorem pushedBatches_append (a b : List Event) :
    pushedBatches (a ++ b) = pushedBatches a ++ pushedBatches b := by
  induction a with
  | nil => rfl
  | cons e t ih => cases e <;> simp [pushedBatches, ih]

/-- The write indices of two event lists in sequence. -/
theorem writeIndices_append (a b : List Event) :
    writeIndices (a ++ b) = writeIndices a ++ writeIndices b := by
  induction a with
  | nil => rfl
  | cons e t ih => cases e <;> simp [writeIndices, ih]

/-- The records of the loop when the first line is skipped by the header test. -/
theorem loopRecords_cons_header (line : List Char) (rest : List (List Char))
    (h : isHeaderLine line = true) :
    loopRecords true (line :: rest) = loopRecords false rest := by
  simp [loopRecords, loopLines, List.eraseP_cons, h]

/-- The records of the loop when the first line is handed to `lineToInstrument`. -/
theorem loopRecords_cons_decoded (first : Bool) (line : List Char)
    (rest : List (List Char)) (h : (first && isHeaderLine line) = false) :
    loopRecords first (line :: rest)
      = (lineToInstrument line).toList ++ loopRecords first rest := by
  cases first with
  | false =>
    cases hl : lineToInstrument line <;>
      simp [loopRecords, loopLines, List.filterMap_cons, hl]
  | true =>
    have hh : isHeaderLine line = false := by simpa using h
    cases hl : lineToInstrument line <;>
      simp [loopRecords, loopLines, List.eraseP_cons, hh, List.filterMap_cons, hl]

/-- Invariant of the loop of `readTheoData`, started with a batch that is not
full: the pushed batches followed by the open batch are the old open batch
followed by the records of the lines the loop decodes and `lineToInstrument`
accepts (`loopRecords`), in input order; every pushed batch is full, the open batch is
never full, every write index is below `BATCH_SIZE` and `doneReading` is not
called inside the loop. -/
theorem readerLoop_spec (lines : List (List Char)) (st : ReaderState)
    (hst : st.currentBatch.length < BATCH_SIZE) :
    (pushedBatches (readerLoop st lines).2).flatten ++ (readerLoop st lines).1.currentBatch
      = st.currentBatch ++ loopRecords st.first lines ∧
    (∀ b ∈ pushedBatches (readerLoop st lines).2, b.length = BATCH_SIZE) ∧
    (readerLoop st lines).1.currentBatch.length < BATCH_SIZE ∧
    (∀ i ∈ writeIndices (readerLoop st lines).2, i < BATCH_SIZE) ∧
    Event.doneReading ∉ (readerLoop st lines).2 := by
  induction lines generalizing st with
  | nil =>
    simp [readerLoop, pushedBatches, writeIndices, loopRecords, loopLines, hst]
  | cons line rest ih =>
    by_cases hh : (st.first && isHeaderLine line) = true
    · -- the line is skipped as the header
      have hs : readerStep st line = ({ st with first := false }, []) := by
        simp [readerStep, hh]
      have hf : st.first = true := by
        cases h : st.first
        · rw [h] at hh; simp at hh
        · rfl
      have hl : isHeaderLine line = true := by rw [hf] at hh; simpa using hh
      obtain ⟨i1, i2, i3, i4, i5⟩ := ih { st with first := false } hst
      simp only [readerLoop, hs, List.nil_append]
      refine ⟨?_, i2, i3, i4, i5⟩
      rw [i1, hf, loopRecords_cons_header line rest hl]
    · have hh' : (st.first && isHeaderLine line) = false := by simpa using hh
      have hacc := loopRecords_cons_decoded st.first line rest hh'
      cases hl : lineToInstrument line with
      | none =>
        have hs : readerStep st line = (st, []) := by simp [readerStep, hh', hl]
        obtain ⟨i1, i2, i3, i4, i5⟩ := ih st hst
        simp only [readerLoop, hs, List.nil_append]
        refine ⟨?_, i2, i3, i4, i5⟩
        rw [i1, hacc, hl]
        rfl
      | some r =>
        by_cases hfull : (st.currentBatch ++ [r]).length = BATCH_SIZE
        · have hs : readerStep st line
              = ({ st with currentBatch := [] },
                 [Event.write st.currentBatch.length r, Event.push (st.currentBatch ++ [r])]) := by
            simp only [readerStep, hh', hl, hfull, if_true]
            simp
          obtain ⟨i1, i2, i3, i4, i5⟩ :=
            ih { st with currentBatch := [] } (by simp [BATCH_SIZE])
          simp only [readerLoop, hs, pushedBatches_append, writeIndices_append]
          refine ⟨?_, ?_, i3, ?_, ?_⟩
          · simp only [pushedBatches, List.flatten_append, List.flatten_cons, List.flatten_nil,
              List.append_nil, List.append_assoc]
            rw [i1, hacc, hl]
            simp
          · intro b hb
            rcases List.mem_append.mp hb with h1 | h1
            · simp only [pushedBatches, List.mem_singleton] at h1
              rw [h1]; exact hfull
            · exact i2 b h1
          · intro i hi
            rcases List.mem_append.mp hi with h1 | h1
            · simp only [writeIndices, List.mem_singleton] at h1
              rw [h1]; exact hst
            · exact i4 i h1
          · intro hm
            rcases List.mem_append.mp hm with h1 | h1
            · simp at h1
            · exact i5 h1
        · have hs : readerStep st line
              = ({ st with currentBatch := st.currentBatch ++ [r] },
                 [Event.write st.currentBatch.length r]) := by
            simp only [readerStep, hh', hl, hfull, if_false]
            simp
          have hlt : (st.currentBatch ++ [r]).length < BATCH_SIZE := by
            have : (st.currentBatch ++ [r]).length = st.currentBatch.length + 1 := by simp
            omega
          obtain ⟨i1, i2, i3, i4, i5⟩ :=
            ih { st with currentBatch := st.currentBatch ++ [r] } hlt
          simp only [readerLoop, hs, pushedBatches_append, writeIndices_append]
          refine ⟨?_, ?_, i3, ?_, ?_⟩
          · simp only [pushedBatches, List.nil_append]
            rw [i1, hacc, hl]
            simp
          · intro b hb
            rcases List.mem_append.mp hb with h1 | h1
            · simp [pushedBatches] at h1
            · exact i2 b h1
          · intro i hi
            rcases List.mem_append.mp hi with h1 | h1
            · simp only [writeIndices, List.mem_singleton] at h1
              rw [h1]; exact hst
            · exact i4 i h1
          · intro hm
            rcases List.mem_append.mp hm with h1 | h1
            · simp at h1
            · exact i5 h1

/-- With a header in the first line, the lines handed to `lineToInstrument` are
the lines after the first. -/
theorem loopLines_of_leading_header (line : List Char) (rest : List (List Char))
    (h : isHeaderLine line = true) : loopLines true (line :: rest) = rest := by
  simp [loopLines, List.eraseP_cons, h]

/-- With no line passing the header test, every line is handed to
`lineToInstrument`. -/
theorem loopLines_of_no_header (lines : List (List Char))
    (h : ∀ l ∈ lines, isHeaderLine l = false) : loopLines true lines = lines := by
  simp only [loopLines, if_true]
  exact List.eraseP_of_forall_not (fun l hl => by rw [h l hl]; simp)

/-- The batching of `readTheoData`, on the code side: for every sequence of
input lines `readTheoData` succeeds, and
(1) the batches it pushes, concatenated in push order, are the records the loop
obtains from `lineToInstrument` (`loopRecords`), in input order;
(2) every pushed batch holds between 1 and 500 records;
(3) every pushed batch but the last holds exactly 500;
(4) every write index into the current batch is below 500;
(5) `doneReading` is called exactly once, as the last event, hence after the
last push. -/
theorem readTheoData_batches (lines : List (List Char)) :
    (readTheoData (some lines)).1 = true ∧
    (pushedBatches (readTheoData (some lines)).2).flatten = loopRecords true lines ∧
    (∀ b ∈ pushedBatches (readTheoData (some lines)).2, 1 ≤ b.length ∧ b.length ≤ 500) ∧
    (∀ b ∈ (pushedBatches (readTheoData (some lines)).2).dropLast, b.length = 500) ∧
    (∀ i ∈ writeIndices (readTheoData (some lines)).2, i < 500) ∧
    (∃ pre, (readTheoData (some lines)).2 = pre ++ [Event.doneReading] ∧
      Event.doneReading ∉ pre) := by
  obtain ⟨i1, i2, i3, i4, i5⟩ :=
    readerLoop_spec lines ReaderState.init (by simp [ReaderState.init, BATCH_SIZE])
  generalize hr : readerLoop ReaderState.init lines = r at i1 i2 i3 i4 i5
  simp only [ReaderState.init, List.nil_append] at i1
  simp only [BATCH_SIZE] at i2 i3 i4
  have hev : (readTheoData (some lines)).2 = r.2 ++ readerFinish r.1 := by
    simp [readTheoData, hr]
  rw [hev]
  by_cases hpos : r.1.currentBatch.length > 0
  · have hfin : readerFinish r.1 = [Event.push r.1.currentBatch, Event.doneReading] := by
      simp [readerFinish, hpos]
    have hpb : pushedBatches (r.2 ++ readerFinish r.1)
        = pushedBatches r.2 ++ [r.1.currentBatch] := by
      rw [pushedBatches_append, hfin]; rfl
    have hwi : writeIndices (r.2 ++ readerFinish r.1) = writeIndices r.2 := by
      rw [writeIndices_append, hfin]; simp [writeIndices]
    refine ⟨rfl, ?_, ?_, ?_, ?_, ?_⟩
    · rw [hpb, List.flatten_append]; simpa using i1
    · intro b hb
      rw [hpb] at hb
      rcases List.mem_append.mp hb with h1 | h1
      · have := i2 b h1; omega
      · simp only [List.mem_singleton] at h1
        rw [h1]; omega
    · intro b hb
      rw [hpb, List.dropLast_concat] at hb
      exact i2 b hb
    · intro i hi
      rw [hwi] at hi
      exact i4 i hi
    · refine ⟨r.2 ++ [Event.push r.1.currentBatch], by simp [hfin], ?_⟩
      intro hm
      rcases List.mem_append.mp hm with h1 | h1
      · exact i5 h1
      · simp at h1
  · have hnil : r.1.currentBatch = [] := by
      cases h : r.1.currentBatch with
      | nil => rfl
      | cons a t => rw [h] at hpos; simp at hpos
    have hfin : readerFinish r.1 = [Event.doneReading] := by
      simp [readerFinish, hnil]
    have hpb : pushedBatches (r.2 ++ readerFinish r.1) = pushedBatches r.2 := by
      rw [pushedBatches_append, hfin]; simp [pushedBatches]
    have hwi : writeIndices (r.2 ++ readerFinish r.1) = writeIndices r.2 := by
      rw [writeIndices_append, hfin]; simp [writeIndices]
    refine ⟨rfl, ?_, ?_, ?_, ?_, ?_⟩
    · rw [hpb, ← i1, hnil, List.append_nil]
    · intro b hb
      rw [hpb] at hb
      have := i2 b hb; omega
    · intro b hb
      rw [hpb] at hb
      exact i2 b (List.mem_of_mem_dropLast hb)
    · intro i hi
      rw [hwi] at hi
      exact i4 i hi
    · exact ⟨r.2, by rw [hfin], i5⟩

/-- When the first line is a header, or no line after the first passes the
header test, the loop of `readTheoData` decodes the non-header lines of the
specification. -/
theorem loopLines_eq_nonHeaderLines (line : List Char) (rest : List (List Char))
    (h : isHeaderLine line = true ∨ ∀ l ∈ rest, isHeaderLine l = false) :
    loopLines true (line :: rest) = nonHeaderLines (line :: rest) := by
  cases hl : isHeaderLine line with
  | true => simp [loopLines, nonHeaderLines, List.eraseP_cons, hl]
  | false =>
    rcases h with h | h
    · rw [hl] at h; exact absurd h (by simp)
    · have hno : ∀ l ∈ rest, ¬ isHeaderLine l = true := fun l hm => by rw [h l hm]; simp
      simp [loopLines, nonHeaderLines, List.eraseP_cons, hl, List.eraseP_of_forall_not hno]

/-- When the first line is a header, or no line after the first passes the
header test, the batches `readTheoData` pushes, concatenated in push order, are
the records of the accepted non-header lines in input order. -/
theorem readTheoData_batches_of_leading_header (line : List Char) (rest : List (List Char))
    (h : isHeaderLine line = true ∨ ∀ l ∈ rest, isHeaderLine l = false) :
    (pushedBatches (readTheoData (some (line :: rest))).2).flatten
      = acceptedNonHeaderRecords (line :: rest) := by
  rw [(readTheoData_batches (line :: rest)).2.1, loopRecords, loopLines_eq_nonHeaderLines line rest h,
    acceptedNonHeaderRecords]

/-- C9, the failing input: in the file `lateHeaderLines` (no header; the second
line is `INSTRUMENTS,100.0,150.0,0.5,0.01`) both lines are non-header lines that
`lineToInstrument` accepts, so the accepted non-header lines have two records;
`readTheoData` pushes one batch that holds the record of the first line alone.
The second line is skipped by the header test, the flag `first` being still
set: the defect of C8. -/
theorem readTheoData_pushes_miss_accepted_record :
    nonHeaderLines lateHeaderLines = lateHeaderLines ∧
    acceptedNonHeaderRecords lateHeaderLines = [sampleRecord, lateHeaderRecord] ∧
    pushedBatches (readTheoData (some lateHeaderLines)).2 = [[sampleRecord]] ∧
    (pushedBatches (readTheoData (some lateHeaderLines)).2).flatten
      ≠ acceptedNonHeaderRecords lateHeaderLines := by
  have h1 : acceptedNonHeaderRecords lateHeaderLines = [sampleRecord, lateHeaderRecord] := by
    decide!
  have h2 : pushedBatches (readTheoData (some lateHeaderLines)).2 = [[sampleRecord]] := by
    decide!
  refine ⟨by decide, h1, h2, ?_⟩
  rw [h1, h2]
  simp

/-! ## The pipeline: conservation of records -/

/-- One iteration of the loop of `readTheoData`: the batch pushed in it, if
any, followed by the new open batch is the old open batch followed by the
record of the line, if it is decoded and accepted. -/
theorem readerStep_records (st : ReaderState) (line : List Char) :
    (pushedBatches (readerStep st line).2).flatten ++ (readerStep st line).1.currentBatch
      = st.currentBatch ++ loopRecords st.first [line] := by
  by_cases hh : (st.first && isHeaderLine line) = true
  · have hf : st.first = true := by
      cases h : st.first
      · rw [h] at hh; simp at hh
      · rfl
    have hl : isHeaderLine line = true := by rw [hf] at hh; simpa using hh
    simp [readerStep, hl, pushedBatches, hf, loopRecords_cons_header line [] hl,
      loopRecords, loopLines]
  · have hh' : (st.first && isHeaderLine line) = false := by simpa using hh
    have hnil : loopRecords st.first [] = [] := by
      cases st.first <;> simp [loopRecords, loopLines]
    rw [loopRecords_cons_decoded st.first line [] hh', hnil, List.append_nil]
    cases hl : lineToInstrument line with
    | none => simp [readerStep, hh', hl, pushedBatches]
    | some r =>
      by_cases hfull : (st.currentBatch ++ [r]).length = BATCH_SIZE
      · simp only [readerStep, hh', hl, hfull, if_true]
        simp [pushedBatches]
      · simp only [readerStep, hh', hl, hfull, if_false]
        simp [pushedBatches]

/-- The flag `first` after one iteration of the loop of `readTheoData`. -/
theorem readerStep_first (st : ReaderState) (line : List Char) :
    (readerStep st line).1.first = true ↔ (st.first = true ∧ isHeaderLine line = false) := by
  by_cases hh : (st.first && isHeaderLine line) = true
  · have : ¬ (st.first = true ∧ isHeaderLine line = false) := by
      intro ⟨a, b⟩
      rw [a, b] at hh
      simp at hh
    simp [readerStep, hh, this]
  · have hh' : (st.first && isHeaderLine line) = false := by simpa using hh
    have hsame : (readerStep st line).1.first = st.first := by
      cases hl : lineToInstrument line with
      | none => simp [readerStep, hh', hl]
      | some r =>
        by_cases hfull : (st.currentBatch ++ [r]).length = BATCH_SIZE
        · simp only [readerStep, hh', hl, hfull, if_true]; simp
        · simp only [readerStep, hh', hl, hfull, if_false]; simp
    rw [hsame]
    cases hf : st.first
    · simp
    · rw [hf] at hh'
      simpa using hh'

/-- The records of the loop after one more line has been read. -/
theorem loopRecords_concat (read : List (List Char)) (line : List Char) (first : Bool)
    (hf : first = true ↔ ∀ l ∈ read, isHeaderLine l = false) :
    loopRecords true (read ++ [line])
      = loopRecords true read ++ loopRecords first [line] := by
  cases first with
  | true =>
    have hno : ∀ l ∈ read, ¬ isHeaderLine l = true := by
      intro l hl
      rw [hf.mp rfl l hl]
      simp
    simp only [loopRecords, loopLines, if_true]
    rw [List.eraseP_append_right _ hno, List.eraseP_of_forall_not hno, List.filterMap_append]
  | false =>
    have hex : ∃ l ∈ read, isHeaderLine l = true := by
      by_contra hcon
      have : ∀ l ∈ read, isHeaderLine l = false := by
        intro l hl
        cases h : isHeaderLine l
        · rfl
        · exact absurd ⟨l, hl, h⟩ hcon
      exact absurd (hf.mpr this) (by simp)
    obtain ⟨l, hl, hp⟩ := hex
    simp only [loopRecords, loopLines, if_true]
    rw [List.eraseP_append_left hp _ hl, List.filterMap_append]
    simp

/-- Replacing the state of worker `i` exchanges the records it owns. -/
theorem heldRecords_set (ws : List WorkerPc) (i : Nat) (w w1 : WorkerPc)
    (h : ws.get? i = some w) :
    (↑(heldRecords (ws.set i w1)) : Multiset InstrumentData) + ↑w.records
      = ↑(heldRecords ws) + ↑w1.records := by
  induction ws generalizing i with
  | nil => simp at h
  | cons a t ih =>
    cases i with
    | zero =>
      simp only [List.get?_cons_zero, Option.some.injEq] at h
      subst h
      simp only [List.set_cons_zero]
      cases a <;> cases w1 <;>
        simp only [heldRecords, WorkerPc.records, ← Multiset.coe_add, Multiset.coe_nil,
          add_zero, zero_add] <;>
        abel
    | succ n =>
      simp only [List.get?_cons_succ] at h
      have := ih n h
      simp only [List.set_cons_succ]
      cases a
      · simpa only [heldRecords] using this
      · simp only [heldRecords, ← Multiset.coe_add]
        rw [add_assoc, this, add_assoc]
      · simpa only [heldRecords] using this

/-- Workers about to call `popBatch` own no records. -/
theorem heldRecords_replicate_popping (W : Nat) :
    heldRecords (List.replicate W WorkerPc.popping) = [] := by
  induction W with
  | zero => rfl
  | succ n ih => simpa [List.replicate_succ, heldRecords] using ih

/-- Returned workers own no records. -/
theorem heldRecords_of_allReturned (ws : List WorkerPc)
    (h : ∀ w ∈ ws, w = WorkerPc.returned) : heldRecords ws = [] := by
  induction ws with
  | nil => rfl
  | cons a t ih =>
    have ha := h a (List.mem_cons_self a t)
    subst ha
    simpa [heldRecords] using ih (fun w hw => h w (List.mem_cons_of_mem _ hw))

/-- The invariant holds at the start of phase 2. -/
theorem Pipeline.inv_init (lines : List (List Char)) (W : Nat) (avg avgS : ℚ) :
    (Pipeline.init lines W avg avgS).Inv lines avg avgS where
  stats := ⟨rfl, rfl⟩
  file := rfl
  first := by simp [Pipeline.init, ReaderState.init]
  records := by
    simp [Pipeline.init, Pipeline.openBatch, ReaderState.init, loopRecords, loopLines]
  rows := by
    simp [Pipeline.init, heldRecords_replicate_popping]
  unread_nil := by intro h; exact absurd rfl h
  done_iff := by simp [Pipeline.init]
  returned := by
    rintro ⟨w, hw, rfl⟩
    have := List.eq_of_mem_replicate hw
    exact absurd this (by simp)

/-- A step of the producer keeps the invariant. -/
theorem Pipeline.inv_producerStep (lines : List (List Char)) (avg avgS : ℚ) (s s1 : Pipeline)
    (h : s.Inv lines avg avgS) (hs : producerStep s = some s1) : s1.Inv lines avg avgS := by
  have hnoret : s.pc ≠ ProducerPc.finished → ¬ ∃ w ∈ s.workers, w = WorkerPc.returned := by
    intro hpc hex
    exact hpc (h.done_iff.mp (h.returned hex).1)
  unfold producerStep at hs
  cases hpc : s.pc with
  | reading =>
    rw [hpc] at hs
    cases hu : s.unread with
    | cons line rest =>
      rw [hu] at hs
      simp only [Option.some.injEq] at hs
      subst hs
      refine ⟨h.stats, ?_, ?_, ?_, h.rows, ?_, ?_, ?_⟩
      · have := h.file
        rw [hu] at this
        simpa using this
      · show (readerStep s.reader line).1.first = true ↔ ∀ l ∈ s.read ++ [line], _
        rw [readerStep_first, h.first]
        constructor
        · rintro ⟨a, b⟩ l hl
          rcases List.mem_append.mp hl with h1 | h1
          · exact a l h1
          · simp only [List.mem_singleton] at h1
            rw [h1]; exact b
        · intro hall
          exact ⟨fun l hl => hall l (List.mem_append_left _ hl),
            hall line (List.mem_append_right _ (List.mem_singleton_self line))⟩
      · have hr := h.records
        simp only [Pipeline.openBatch, hpc] at hr
        show (↑s.popped.flatten : Multiset InstrumentData)
            + ↑(s.instruments ++ pushedBatches (readerStep s.reader line).2).flatten
            + ↑(Pipeline.openBatch _) = ↑(loopRecords true (s.read ++ [line]))
        simp only [Pipeline.openBatch, hpc]
        rw [loopRecords_concat s.read line s.reader.first h.first, List.flatten_append,
          ← Multiset.coe_add, ← Multiset.coe_add, ← hr, add_assoc, add_assoc, add_assoc,
          Multiset.coe_add, Multiset.coe_add, readerStep_records, ← Multiset.coe_add,
          ← Multiset.coe_add]
        simp only [add_assoc]
      · intro hne
        exact absurd rfl hne
      · show s.done = true ↔ ProducerPc.reading = ProducerPc.finished
        rw [← hpc]
        exact h.done_iff
      · intro hex
        exact absurd hex (hnoret (by rw [hpc]; simp))
    | nil =>
      rw [hu] at hs
      simp only [Option.some.injEq] at hs
      subst hs
      have hflat : (s.instruments ++
          (if s.reader.currentBatch.length > 0 then [s.reader.currentBatch] else [])).flatten
          = s.instruments.flatten ++ s.reader.currentBatch := by
        by_cases hp : s.reader.currentBatch.length > 0
        · simp [hp]
        · have : s.reader.currentBatch = [] := by
            cases hc : s.reader.currentBatch with
            | nil => rfl
            | cons a t => rw [hc] at hp; simp at hp
          simp [this]
      refine ⟨h.stats, ?_, h.first, ?_, h.rows, ?_, ?_, ?_⟩
      · have := h.file
        rw [hu] at this
        exact this
      · have hr := h.records
        simp only [Pipeline.openBatch, hpc] at hr
        show (↑s.popped.flatten : Multiset InstrumentData)
            + ↑((s.instruments ++
                (if s.reader.currentBatch.length > 0 then [s.reader.currentBatch]
                  else [])).flatten)
            + ↑([] : List InstrumentData) = ↑(loopRecords true s.read)
        rw [hflat, ← hr, ← Multiset.coe_add s.instruments.flatten, Multiset.coe_nil, add_zero,
          add_assoc]
      · intro _
        rfl
      · show s.done = true ↔ ProducerPc.flushed = ProducerPc.finished
        constructor
        · intro hd
          have := h.done_iff.mp hd
          rw [hpc] at this
          exact absurd this (by simp)
        · intro hd
          exact absurd hd (by simp)
      · intro hex
        exact absurd hex (hnoret (by rw [hpc]; simp))
  | flushed =>
    rw [hpc] at hs
    simp only [Option.some.injEq] at hs
    subst hs
    refine ⟨h.stats, h.file, h.first, ?_, h.rows, ?_, ?_, ?_⟩
    · have hr := h.records
      simp only [Pipeline.openBatch, hpc] at hr
      show (↑s.popped.flatten : Multiset InstrumentData) + ↑s.instruments.flatten
          + ↑(Pipeline.openBatch _) = ↑(loopRecords true s.read)
      simp only [Pipeline.openBatch]
      exact hr
    · intro _
      exact h.unread_nil (by rw [hpc]; simp)
    · show true = true ↔ ProducerPc.finished = ProducerPc.finished
      simp
    · intro hex
      exact absurd hex (hnoret (by rw [hpc]; simp))
  | finished =>
    rw [hpc] at hs
    exact absurd hs (by simp)

/-- A step of a worker keeps the invariant. -/
theorem Pipeline.inv_workerStep (lines : List (List Char)) (avg avgS : ℚ) (s s1 : Pipeline)
    (i : Nat) (h : s.Inv lines avg avgS) (hs : workerStep s i = some s1) :
    s1.Inv lines avg avgS := by
  have hmem : ∀ (w0 : WorkerPc), w0 ≠ WorkerPc.returned →
      (∃ w ∈ s.workers.set i w0, w = WorkerPc.returned) →
      ∃ w ∈ s.workers, w = WorkerPc.returned := by
    rintro w0 hw0 ⟨w, hw, rfl⟩
    rcases List.mem_or_eq_of_mem_set hw with h1 | h1
    · exact ⟨_, h1, rfl⟩
    · exact absurd h1.symm hw0
  unfold workerStep at hs
  cases hw : s.workers.get? i with
  | none => rw [hw] at hs; exact absurd hs (by simp)
  | some w =>
    rw [hw] at hs
    cases w with
    | returned => exact absurd hs (by simp)
    | holding batch =>
      simp only [Option.some.injEq] at hs
      subst hs
      have hset := heldRecords_set s.workers i (WorkerPc.holding batch) WorkerPc.popping hw
      simp only [WorkerPc.records, Multiset.coe_nil, add_zero] at hset
      refine ⟨h.stats, h.file, h.first, h.records, ?_, h.unread_nil, h.done_iff, ?_⟩
      · have hr := h.rows
        show (↑(s.output ++ batch.map (rowOf s.avg s.avgS)) : Multiset ResultRow)
            + Multiset.map (rowOf s.avg s.avgS) ↑(heldRecords (s.workers.set i WorkerPc.popping))
            = Multiset.map (rowOf s.avg s.avgS) ↑s.popped.flatten
        rw [← hr, ← hset, Multiset.map_add, ← Multiset.coe_add, Multiset.map_coe (l := batch)]
        abel
      · intro hex
        exact h.returned (hmem WorkerPc.popping (by simp) hex)
    | popping =>
      cases hq : s.instruments.getLast? with
      | some batch =>
        rw [hq] at hs
        simp only [Option.some.injEq] at hs
        subst hs
        have hsplit : s.instruments.dropLast ++ [batch] = s.instruments :=
          List.dropLast_append_getLast? batch hq
        have hset := heldRecords_set s.workers i WorkerPc.popping (WorkerPc.holding batch) hw
        simp only [WorkerPc.records, Multiset.coe_nil, add_zero] at hset
        refine ⟨h.stats, h.file, h.first, ?_, ?_, h.unread_nil, h.done_iff, ?_⟩
        · have hr := h.records
          rw [← hsplit] at hr
          show (↑(s.popped ++ [batch]).flatten : Multiset InstrumentData)
              + ↑s.instruments.dropLast.flatten + ↑s.openBatch = ↑(loopRecords true s.read)
          rw [← hr]
          simp only [List.flatten_append, List.flatten_cons, List.flatten_nil, List.append_nil,
            ← Multiset.coe_add]
          abel
        · have hr := h.rows
          show (↑s.output : Multiset ResultRow)
              + Multiset.map (rowOf s.avg s.avgS)
                  ↑(heldRecords (s.workers.set i (WorkerPc.holding batch)))
              = Multiset.map (rowOf s.avg s.avgS) ↑(s.popped ++ [batch]).flatten
          simp only [List.flatten_append, List.flatten_cons, List.flatten_nil, List.append_nil,
            ← Multiset.coe_add, Multiset.map_add]
          rw [← hr, hset, Multiset.map_add]
          abel
        · intro hex
          have := (h.returned (hmem (WorkerPc.holding batch) (by simp) hex)).2
          rw [this] at hq
          exact absurd hq (by simp)
      | none =>
        rw [hq] at hs
        have hempty : s.instruments = [] := List.getLast?_eq_none_iff.mp hq
        by_cases hd : s.done = true
        · rw [if_pos hd] at hs
          simp only [Option.some.injEq] at hs
          subst hs
          have hset := heldRecords_set s.workers i WorkerPc.popping WorkerPc.returned hw
          simp only [WorkerPc.records, Multiset.coe_nil, add_zero] at hset
          refine ⟨h.stats, h.file, h.first, h.records, ?_, h.unread_nil, h.done_iff, ?_⟩
          · have hr := h.rows
            show (↑s.output : Multiset ResultRow)
                + Multiset.map (rowOf s.avg s.avgS)
                    ↑(heldRecords (s.workers.set i WorkerPc.returned))
                = Multiset.map (rowOf s.avg s.avgS) ↑s.popped.flatten
            rw [hset]
            exact hr
          · intro _
            exact ⟨hd, hempty⟩
        · rw [if_neg hd] at hs
          exact absurd hs (by simp)

/-- Every step keeps the invariant. -/
theorem Pipeline.inv_step (lines : List (List Char)) (avg avgS : ℚ) (s s1 : Pipeline)
    (t : Thread) (h : s.Inv lines avg avgS) (hs : s.step t = some s1) :
    s1.Inv lines avg avgS := by
  cases t with
  | producer => exact Pipeline.inv_producerStep lines avg avgS s s1 h hs
  | worker i => exact Pipeline.inv_workerStep lines avg avgS s s1 i h hs

/-- Every run keeps the invariant. -/
theorem Pipeline.inv_run (lines : List (List Char)) (avg avgS : ℚ) (sched : List Thread)
    (s s1 : Pipeline) (h : s.Inv lines avg avgS) (hr : s.run sched = some s1) :
    s1.Inv lines avg avgS := by
  induction sched generalizing s with
  | nil =>
    simp only [Pipeline.run, Option.some.injEq] at hr
    subst hr
    exact h
  | cons t ts ih =>
    simp only [Pipeline.run] at hr
    cases hst : s.step t with
    | none => rw [hst] at hr; exact absurd hr (by simp)
    | some s2 =>
      rw [hst] at hr
      exact ih s2 (Pipeline.inv_step lines avg avgS s s2 t h hst) hr

/-- The number of workers never changes. -/
theorem Pipeline.workers_length_run (sched : List Thread) (s s1 : Pipeline)
    (hr : s.run sched = some s1) : s1.workers.length = s.workers.length := by
  induction sched generalizing s with
  | nil =>
    simp only [Pipeline.run, Option.some.injEq] at hr
    subst hr
    rfl
  | cons t ts ih =>
    simp only [Pipeline.run] at hr
    cases hst : s.step t with
    | none => rw [hst] at hr; exact absurd hr (by simp)
    | some s2 =>
      rw [hst] at hr
      rw [ih s2 hr]
      cases t with
      | producer =>
        simp only [Pipeline.step, producerStep] at hst
        cases hpc : s.pc <;> rw [hpc] at hst
        · cases hu : s.unread <;> rw [hu] at hst <;>
            simp only [Option.some.injEq] at hst <;> subst hst <;> rfl
        · simp only [Option.some.injEq] at hst
          subst hst
          rfl
        · exact absurd hst (by simp)
      | worker i =>
        simp only [Pipeline.step, workerStep] at hst
        cases hw : s.workers.get? i with
        | none => rw [hw] at hst; exact absurd hst (by simp)
        | some w =>
          rw [hw] at hst
          cases w with
          | returned => exact absurd hst (by simp)
          | holding batch =>
            simp only [Option.some.injEq] at hst
            subst hst
            simp
          | popping =>
            cases hq : s.instruments.getLast? with
            | some batch =>
              rw [hq] at hst
              simp only [Option.some.injEq] at hst
              subst hst
              simp
            | none =>
              rw [hq] at hst
              cases hd : s.done with
              | false => rw [hd] at hst; exact absurd hst (by simp)
              | true =>
                rw [hd] at hst
                simp only [if_true, Option.some.injEq] at hst
                subst hst
                simp

/-- In a terminal state reached with at least one worker, the rows written are,
as a multiset, the rows of the records the loop obtained from the whole file. -/
theorem Pipeline.output_of_terminal (lines : List (List Char)) (W : Nat) (hW : 1 ≤ W)
    (avg avgS : ℚ) (sched : List Thread) (s : Pipeline)
    (hr : (Pipeline.init lines W avg avgS).run sched = some s) (ht : s.allReturned) :
    (↑s.output : Multiset ResultRow)
      = ↑((loopRecords true lines).map (rowOf avg avgS)) := by
  have h := Pipeline.inv_run lines avg avgS sched _ s (Pipeline.inv_init lines W avg avgS) hr
  have hlen : s.workers.length = W := by
    rw [Pipeline.workers_length_run sched _ s hr]
    simp [Pipeline.init]
  have hex : ∃ w ∈ s.workers, w = WorkerPc.returned := by
    cases hws : s.workers with
    | nil => rw [hws] at hlen; simp at hlen; omega
    | cons a t =>
      refine ⟨a, List.mem_cons_self a t, ?_⟩
      exact ht a (by rw [hws]; exact List.mem_cons_self a t)
  obtain ⟨hdone, hq⟩ := h.returned hex
  have hpc := h.done_iff.mp hdone
  have hun := h.unread_nil (by rw [hpc]; simp)
  have hread : s.read = lines := by
    have := h.file
    rw [hun, List.append_nil] at this
    exact this
  have hrec := h.records
  simp only [Pipeline.openBatch, hpc, hq, List.flatten_nil, Multiset.coe_nil, add_zero,
    hread] at hrec
  have hrows := h.rows
  rw [heldRecords_of_allReturned s.workers ht, Multiset.coe_nil, Multiset.map_zero, add_zero,
    hrec, h.stats.1, h.stats.2, Multiset.map_coe] at hrows
  exact hrows

/-- Conservation between the producer and the workers, on the code side: in
the step model with one producer and `W ≥ 1` workers, for every schedule: in
every reachable state the lines read so far are a prefix of the file and the
records of the batches already popped, of the batches in the queue and of the
open batch of the producer are, as a multiset, the records the loop has
obtained from `lineToInstrument` so far (`loopRecords`); in every terminal
state (all workers returned) the multiset of output rows is the multiset of the
rows of these records for the whole file, the row count is their count, and
every terminal state of every schedule with any number of workers has the same
multiset of rows.  The queue loses and duplicates nothing. -/
theorem pipeline_conserves_records (lines : List (List Char)) (W : Nat) (hW : 1 ≤ W)
    (avg avgS : ℚ) (sched : List Thread) (s : Pipeline)
    (hr : (Pipeline.init lines W avg avgS).run sched = some s) :
    s.read ++ s.unread = lines ∧
    ((↑s.popped.flatten : Multiset InstrumentData) + ↑s.instruments.flatten + ↑s.openBatch
      = ↑(loopRecords true s.read)) ∧
    (s.allReturned →
      (↑s.output : Multiset ResultRow) = ↑((loopRecords true lines).map (rowOf avg avgS)) ∧
      s.output.length = (loopRecords true lines).length ∧
      ∀ (W2 : Nat) (sched2 : List Thread) (s2 : Pipeline), 1 ≤ W2 →
        (Pipeline.init lines W2 avg avgS).run sched2 = some s2 → s2.allReturned →
        (↑s2.output : Multiset ResultRow) = ↑s.output) := by
  have h := Pipeline.inv_run lines avg avgS sched _ s (Pipeline.inv_init lines W avg avgS) hr
  refine ⟨h.file, h.records, ?_⟩
  intro ht
  have hout := Pipeline.output_of_terminal lines W hW avg avgS sched s hr ht
  refine ⟨hout, ?_, ?_⟩
  · have hp := Multiset.coe_eq_coe.mp hout
    rw [hp.length_eq, List.length_map]
  · intro W2 sched2 s2 hW2 hr2 ht2
    rw [hout]
    exact Pipeline.output_of_terminal lines W2 hW2 avg avgS sched2 s2 hr2 ht2

/-- The conservation theorem on a sample run: `sampleSchedule` takes two workers
over `sampleLines` to the terminal state `sampleFinal`, whose only row is `AAPL`
at `100`. -/
theorem pipeline_conserves_records_sample :
    1 ≤ 2 ∧
    (Pipeline.init sampleLines 2 150 22500).run sampleSchedule = some sampleFinal ∧
    sampleFinal.allReturned ∧
    (↑sampleFinal.output : Multiset ResultRow)
      = ↑((loopRecords true sampleLines).map (rowOf 150 22500)) ∧
    sampleFinal.output.length = (loopRecords true sampleLines).length := by
  have hr : (Pipeline.init sampleLines 2 150 22500).run sampleSchedule = some sampleFinal := by
    decide!
  have ht : sampleFinal.allReturned := by decide
  have h := (pipeline_conserves_records sampleLines 2 (by decide) 150 22500 sampleSchedule
    sampleFinal hr).2.2 ht
  exact ⟨by decide, hr, ht, h.1, h.2.1⟩

/-- When the first line is a header, or no line after the first passes the
header test, the rows written in a terminal state are, as a multiset, the rows
of the accepted non-header lines, and as many. -/
theorem pipeline_output_of_leading_header (line : List Char) (rest : List (List Char))
    (h : isHeaderLine line = true ∨ ∀ l ∈ rest, isHeaderLine l = false)
    (W : Nat) (hW : 1 ≤ W) (avg avgS : ℚ) (sched : List Thread) (s : Pipeline)
    (hr : (Pipeline.init (line :: rest) W avg avgS).run sched = some s) (ht : s.allReturned) :
    (↑s.output : Multiset ResultRow)
      = ↑((acceptedNonHeaderRecords (line :: rest)).map (rowOf avg avgS)) ∧
    s.output.length = (acceptedNonHeaderRecords (line :: rest)).length := by
  have e : loopRecords true (line :: rest) = acceptedNonHeaderRecords (line :: rest) := by
    rw [loopRecords, loopLines_eq_nonHeaderLines line rest h, acceptedNonHeaderRecords]
  have hout := Pipeline.output_of_terminal (line :: rest) W hW avg avgS sched s hr ht
  rw [e] at hout
  refine ⟨hout, ?_⟩
  have hp := Multiset.coe_eq_coe.mp hout
  rw [hp.length_eq, List.length_map]

/-- C10, the failing input: on the file `lateHeaderLines` (no header; the second
line is `INSTRUMENTS,100.0,150.0,0.5,0.01`) with one worker, `lateHeaderSchedule`
ends in the terminal state `lateHeaderFinal`, in which both lines have been
read.  The accepted non-header lines have two records and two rows; the batches
popped hold one record, the queue and the open batch none, and the output holds
one row.  The record is lost before the queue, in the header test of
`readTheoData`: the defect of C8. -/
theorem pipeline_output_misses_accepted_line :
    (Pipeline.init lateHeaderLines 1 150 22500).run lateHeaderSchedule = some lateHeaderFinal ∧
    lateHeaderFinal.allReturned ∧
    lateHeaderFinal.read = lateHeaderLines ∧
    acceptedNonHeaderRecords lateHeaderFinal.read = [sampleRecord, lateHeaderRecord] ∧
    lateHeaderFinal.popped.flatten = [sampleRecord] ∧
    lateHeaderFinal.instruments.flatten = [] ∧
    lateHeaderFinal.openBatch = [] ∧
    (acceptedNonHeaderRecords lateHeaderLines).map (rowOf 150 22500)
      = [{ name := "AAPL".toList, price := Double.finite 100 },
         { name := "INSTRUMENTS".toList, price := Double.finite 100 }] ∧
    lateHeaderFinal.output = [{ name := "AAPL".toList, price := Double.finite 100 }] ∧
    lateHeaderFinal.output.length ≠ (acceptedNonHeaderRecords lateHeaderLines).length ∧
    (↑lateHeaderFinal.output : Multiset ResultRow)
      ≠ ↑((acceptedNonHeaderRecords lateHeaderLines).map (rowOf 150 22500)) := by
  have hrec : acceptedNonHeaderRecords lateHeaderLines = [sampleRecord, lateHeaderRecord] := by
    decide!
  have hrows : (acceptedNonHeaderRecords lateHeaderLines).map (rowOf 150 22500)
      = [{ name := "AAPL".toList, price := Double.finite 100 },
         { name := "INSTRUMENTS".toList, price := Double.finite 100 }] := by
    decide!
  have hout : lateHeaderFinal.output
      = [{ name := "AAPL".toList, price := Double.finite 100 }] := rfl
  refine ⟨by decide!, by decide, rfl, hrec, rfl, rfl, rfl, hrows, hout, ?_, ?_⟩
  · rw [hrec, hout]
    simp
  · rw [hrows, hout]
    intro h
    have := congrArg Multiset.card h
    simp at this

/-! ## The orchestrator `calcTheos` -/

/-- C11: with zero parseable values in the underlying-price input
`readUnderlyingPrices` reports failure and `calcTheos` returns status 1, for
every instrument file, hardware concurrency and schedule, without opening the
output file, without starting the producer or a worker and without writing a
row. -/
theorem calcTheos_without_underlying_values (outputOpens : Bool)
    (theo : Option (List (List Char))) (hardwareConcurrency : Nat) (sched : List Thread) :
    (readUnderlyingPrices (some [])).1 = false ∧
    calcTheos (some []) outputOpens theo hardwareConcurrency sched
      = some { status := 1, outputOpened := false, producerStarted := false,
               workersStarted := 0, rows := [] } := by
  have h : (readUnderlyingPrices (some [])).1 = false := by
    simp [readUnderlyingPrices, underlyingLoop, UnderlyingState.init]
  refine ⟨h, ?_⟩
  simp only [calcTheos, h, Bool.not_false, if_true]

/-- At least one worker is started. -/
theorem numRemainingThreads_pos (hardwareConcurrency : Nat) :
    1 ≤ numRemainingThreads hardwareConcurrency := by
  unfold numRemainingThreads
  dsimp only
  split <;> omega

/-- When the instrument file does not open, no thread of phase 2 has a step. -/
theorem Pipeline.step_start_none (W : Nat) (avg avgS : ℚ) (t : Thread) :
    (Pipeline.start none W avg avgS).step t = none := by
  cases t with
  | producer => rfl
  | worker i =>
    show workerStep (Pipeline.start none W avg avgS) i = none
    unfold workerStep
    have hws : (Pipeline.start none W avg avgS).workers = List.replicate W WorkerPc.popping := rfl
    cases hg : (Pipeline.start none W avg avgS).workers.get? i with
    | none => rfl
    | some w =>
      have hw : w = WorkerPc.popping := by
        have hm := List.get?_mem hg
        rw [hws] at hm
        exact List.eq_of_mem_replicate hm
      subst hw
      rfl

/-- When the instrument file does not open, the empty schedule is the only one
that runs, and it leaves the workers where they started. -/
theorem Pipeline.run_start_none (W : Nat) (avg avgS : ℚ) (sched : List Thread) (s : Pipeline)
    (h : (Pipeline.start none W avg avgS).run sched = some s) :
    s = Pipeline.start none W avg avgS := by
  cases sched with
  | nil =>
    simp only [Pipeline.run, Option.some.injEq] at h
    exact h.symm
  | cons t ts =>
    simp only [Pipeline.run, Pipeline.step_start_none] at h
    exact absurd h (by simp)

/-- With valid statistics and an output file that opens, `calcTheos` does not
return when the instrument file cannot be opened: under no schedule do the
workers return. -/
theorem calcTheos_unopened_instrument_file (vs : List ℚ) (hvs : vs ≠ [])
    (hardwareConcurrency : Nat) (sched : List Thread) :
    calcTheos (some vs) true none hardwareConcurrency sched = none := by
  have hu : (readUnderlyingPrices (some vs)).1 = true := by
    rw [readUnderlyingPrices_of_ne_nil vs hvs]
  simp only [calcTheos, hu, Bool.not_true, Bool.false_eq_true, if_false]
  cases hr : (Pipeline.start none (numRemainingThreads hardwareConcurrency)
      (readUnderlyingPrices (some vs)).2.1 (readUnderlyingPrices (some vs)).2.2).run sched with
  | none => rfl
  | some s =>
    have hs := Pipeline.run_start_none _ _ _ sched s hr
    have hnot : ¬ s.allReturned := by
      intro hall
      have hW := numRemainingThreads_pos hardwareConcurrency
      have hws : s.workers
          = List.replicate (numRemainingThreads hardwareConcurrency) WorkerPc.popping := by
        rw [hs]; rfl
      obtain ⟨n, hn⟩ : ∃ n, numRemainingThreads hardwareConcurrency = n + 1 :=
        ⟨numRemainingThreads hardwareConcurrency - 1, by omega⟩
      have := hall WorkerPc.popping (by rw [hws, hn, List.replicate_succ]; exact List.mem_cons_self _ _)
      exact absurd this (by simp)
    simp only [hnot, and_false, if_false]

/-- C12, the failing input: with the underlying prices `150 150 150` and an
output file that opens, `calcTheos` returns under no schedule when the
instrument file cannot be opened: `readTheoData` returns at line 209 without
calling `doneReading`, every worker waits in `popBatch` and the joins never
return.  With the instrument file `sampleLines` the same call returns status 0
under `sampleSchedule`. -/
theorem calcTheos_hangs_on_unopened_instrument_file :
    (∀ (hardwareConcurrency : Nat) (sched : List Thread),
      calcTheos (some [150, 150, 150]) true none hardwareConcurrency sched = none) ∧
    (readTheoData none).2 = [] ∧
    popBatch (Pipeline.start none 2 150 22500).queue = none ∧
    calcTheos (some [150, 150, 150]) true (some sampleLines) 3 sampleSchedule
      = some { status := 0, outputOpened := true, producerStarted := true,
               workersStarted := 2,
               rows := [{ name := "AAPL".toList, price := Double.finite 100 }] } := by
  refine ⟨fun hc sched => calcTheos_unopened_instrument_file _ (by simp) hc sched, rfl,
    by decide, by decide!⟩

/-! ## The queue: last in, first out -/

/-- Function `popBatch` on a queue whose back is `b`. -/
theorem popBatch_concat (rest : List (List InstrumentData)) (b : List InstrumentData)
    (done : Bool) :
    popBatch { instruments := rest ++ [b], done := done }
      = some (some b, { instruments := rest, done := done }) := by
  simp [popBatch]

/-- Batches pushed in sequence are appended in that order. -/
theorem pushAll_instruments (q : BatchQueue) (batches : List (List InstrumentData)) :
    pushAll q batches = { instruments := q.instruments ++ batches, done := q.done } := by
  induction batches generalizing q with
  | nil => simp [pushAll]
  | cons b t ih =>
    have := ih (pushBatch q b)
    simp only [pushAll, List.foldl_cons] at this ⊢
    rw [this]
    simp [pushBatch]

/-- Popping as many batches as were appended returns them in reverse order and
restores the queue. -/
theorem popMany_append (instruments batches : List (List InstrumentData)) (done : Bool) :
    popMany batches.length { instruments := instruments ++ batches, done := done }
      = some (batches.reverse, { instruments := instruments, done := done }) := by
  induction batches using List.reverseRecOn with
  | nil => simp [popMany]
  | append_singleton t b ih =>
    rw [List.length_append, List.length_singleton, ← List.append_assoc]
    simp only [popMany, popBatch_concat, ih, List.reverse_append, List.reverse_cons,
      List.reverse_nil, List.nil_append, List.singleton_append]

/-- C13: as a sequential state machine the queue is last-in-first-out.
(1) `pushBatch(b)` followed by `popBatch` returns `b` and leaves the queue as it
was, whatever the flag `done`;
(2) `popBatch` on a non-empty queue returns its back, which is the batch pushed
last among those in the queue, and removes exactly that batch;
(3) after any batches are pushed in sequence, as many calls of `popBatch`
return them in reverse order of the pushes and leave the queue as it was. -/
theorem queue_is_lifo :
    (∀ (q : BatchQueue) (b : List InstrumentData), popBatch (pushBatch q b) = some (some b, q)) ∧
    (∀ (rest : List (List InstrumentData)) (b : List InstrumentData) (done : Bool),
      popBatch { instruments := rest ++ [b], done := done }
        = some (some b, { instruments := rest, done := done })) ∧
    (∀ (q : BatchQueue) (batches : List (List InstrumentData)),
      (pushAll q batches).instruments = q.instruments ++ batches ∧
      popMany batches.length (pushAll q batches) = some (batches.reverse, q)) := by
  refine ⟨?_, popBatch_concat, ?_⟩
  · intro q b
    exact popBatch_concat q.instruments b q.done
  · intro q batches
    rw [pushAll_instruments]
    exact ⟨rfl, popMany_append q.instruments batches q.done⟩

/-- A call of `popBatch` by a worker of the pipeline is the step of the queue:
the worker waits when `popBatch` waits, returns when it gives `false`, and
otherwise owns the batch popped. -/
theorem workerStep_popping (s : Pipeline) (i : Nat)
    (h : s.workers.get? i = some WorkerPc.popping) :
    workerStep s i
      = match popBatch s.queue with
        | none => none
        | some (none, _) => some { s with workers := s.workers.set i WorkerPc.returned }
        | some (some out, q) =>
          some { s with instruments := q.instruments,
                        workers := s.workers.set i (WorkerPc.holding out),
                        popped := s.popped ++ [out] } := by
  unfold workerStep popBatch
  rw [h]
  simp only [Pipeline.queue]
  cases hq : s.instruments.getLast? with
  | some b => rfl
  | none =>
    cases hd : s.done <;> simp

/-! ## The flag `done` and the end of the workers -/

/-- No step clears the flag `done`. -/
theorem Pipeline.done_step (s s1 : Pipeline) (t : Thread) (hs : s.step t = some s1)
    (hd : s.done = true) : s1.done = true := by
  cases t with
  | producer =>
    simp only [Pipeline.step, producerStep] at hs
    cases hpc : s.pc <;> rw [hpc] at hs
    · cases hu : s.unread <;> rw [hu] at hs <;>
        simp only [Option.some.injEq] at hs <;> subst hs <;> exact hd
    · simp only [Option.some.injEq] at hs
      subst hs
      rfl
    · exact absurd hs (by simp)
  | worker i =>
    simp only [Pipeline.step, workerStep] at hs
    cases hw : s.workers.get? i with
    | none => rw [hw] at hs; exact absurd hs (by simp)
    | some w =>
      rw [hw] at hs
      cases w with
      | returned => exact absurd hs (by simp)
      | holding batch =>
        simp only [Option.some.injEq] at hs
        subst hs
        exact hd
      | popping =>
        cases hq : s.instruments.getLast? with
        | some batch =>
          rw [hq] at hs
          simp only [Option.some.injEq] at hs
          subst hs
          exact hd
        | none =>
          rw [hq, if_pos hd] at hs
          simp only [Option.some.injEq] at hs
          subst hs
          exact hd

/-- Once the producer has returned, a step only takes batches from the back of
the queue: the queue after the step is a prefix of the queue before. -/
theorem Pipeline.instruments_step (s s1 : Pipeline) (t : Thread) (hs : s.step t = some s1)
    (hpc : s.pc = ProducerPc.finished) :
    s1.pc = ProducerPc.finished ∧ s1.instruments <+: s.instruments := by
  cases t with
  | producer =>
    simp only [Pipeline.step, producerStep, hpc] at hs
    exact absurd hs (by simp)
  | worker i =>
    simp only [Pipeline.step, workerStep] at hs
    cases hw : s.workers.get? i with
    | none => rw [hw] at hs; exact absurd hs (by simp)
    | some w =>
      rw [hw] at hs
      cases w with
      | returned => exact absurd hs (by simp)
      | holding batch =>
        simp only [Option.some.injEq] at hs
        subst hs
        exact ⟨hpc, List.prefix_refl _⟩
      | popping =>
        cases hq : s.instruments.getLast? with
        | some batch =>
          rw [hq] at hs
          simp only [Option.some.injEq] at hs
          subst hs
          exact ⟨hpc, List.dropLast_prefix _⟩
        | none =>
          rw [hq] at hs
          by_cases hd : s.done = true
          · rw [if_pos hd] at hs
            simp only [Option.some.injEq] at hs
            subst hs
            exact ⟨hpc, List.prefix_refl _⟩
          · rw [if_neg hd] at hs
            exact absurd hs (by simp)

/-- A worker that has returned stays returned. -/
theorem Pipeline.returned_step (s s1 : Pipeline) (t : Thread) (hs : s.step t = some s1)
    (j : Nat) (hj : s.workers.get? j = some WorkerPc.returned) :
    s1.workers.get? j = some WorkerPc.returned := by
  have hset : ∀ (i : Nat) (w0 w1 : WorkerPc), s.workers.get? i = some w0 →
      w0 ≠ WorkerPc.returned → (s.workers.set i w1).get? j = some WorkerPc.returned := by
    intro i w0 w1 hi hne
    have hij : i ≠ j := by
      intro e
      rw [e, hj] at hi
      exact hne (Option.some.inj hi).symm
    rw [List.get?_eq_getElem?] at hj ⊢
    rw [List.getElem?_set_ne hij]
    exact hj
  cases t with
  | producer =>
    simp only [Pipeline.step, producerStep] at hs
    cases hpc : s.pc <;> rw [hpc] at hs
    · cases hu : s.unread <;> rw [hu] at hs <;>
        simp only [Option.some.injEq] at hs <;> subst hs <;> exact hj
    · simp only [Option.some.injEq] at hs
      subst hs
      exact hj
    · exact absurd hs (by simp)
  | worker i =>
    simp only [Pipeline.step, workerStep] at hs
    cases hw : s.workers.get? i with
    | none => rw [hw] at hs; exact absurd hs (by simp)
    | some w =>
      rw [hw] at hs
      cases w with
      | returned => exact absurd hs (by simp)
      | holding batch =>
        simp only [Option.some.injEq] at hs
        subst hs
        exact hset i _ _ hw (by simp)
      | popping =>
        cases hq : s.instruments.getLast? with
        | some batch =>
          rw [hq] at hs
          simp only [Option.some.injEq] at hs
          subst hs
          exact hset i _ _ hw (by simp)
        | none =>
          rw [hq] at hs
          by_cases hd : s.done = true
          · rw [if_pos hd] at hs
            simp only [Option.some.injEq] at hs
            subst hs
            exact hset i _ _ hw (by simp)
          · rw [if_neg hd] at hs
            exact absurd hs (by simp)

/-- Along a run: `done` stays set, a returned worker stays returned, and once
the producer has returned the queue only shrinks from its back. -/
theorem Pipeline.run_monotone (sched : List Thread) (s s1 : Pipeline)
    (hr : s.run sched = some s1) :
    (s.done = true → s1.done = true) ∧
    (∀ j, s.workers.get? j = some WorkerPc.returned →
      s1.workers.get? j = some WorkerPc.returned) ∧
    (s.pc = ProducerPc.finished →
      s1.pc = ProducerPc.finished ∧ s1.instruments <+: s.instruments) := by
  induction sched generalizing s with
  | nil =>
    simp only [Pipeline.run, Option.some.injEq] at hr
    subst hr
    exact ⟨id, fun _ h => h, fun h => ⟨h, List.prefix_refl _⟩⟩
  | cons t ts ih =>
    simp only [Pipeline.run] at hr
    cases hst : s.step t with
    | none => rw [hst] at hr; exact absurd hr (by simp)
    | some s2 =>
      rw [hst] at hr
      obtain ⟨i1, i2, i3⟩ := ih s2 hr
      refine ⟨fun hd => i1 (Pipeline.done_step s s2 t hst hd),
        fun j hj => i2 j (Pipeline.returned_step s s2 t hst j hj), ?_⟩
      intro hpc
      obtain ⟨a, b⟩ := Pipeline.instruments_step s s2 t hst hpc
      obtain ⟨c, d⟩ := i3 a
      exact ⟨c, d.trans b⟩

/-- C14: in every run of the step model, from a reachable state `s` to a later
state `s1`:
(1) if `done` is set in `s` it is set in `s1`, and the queue of `s1` is a prefix
of the queue of `s`: batches were taken from its back, none was pushed;
(2) if in `s` some worker has returned (its `popBatch` gave `false`), then in
`s1` the flag is set and the queue is empty, `popBatch` gives `false`, and the
step of every worker that calls `popBatch` is to return: no later `popBatch`
returns a batch. -/
theorem done_is_permanent (lines : List (List Char)) (W : Nat) (avg avgS : ℚ)
    (sched1 sched2 : List Thread) (s s1 : Pipeline)
    (h1 : (Pipeline.init lines W avg avgS).run sched1 = some s)
    (h2 : s.run sched2 = some s1) :
    (s.done = true → s1.done = true ∧ s1.instruments <+: s.instruments) ∧
    ((∃ j, s.workers.get? j = some WorkerPc.returned) →
      s1.done = true ∧ s1.instruments = [] ∧
      popBatch s1.queue = some (none, s1.queue) ∧
      ∀ i, s1.workers.get? i = some WorkerPc.popping →
        workerStep s1 i = some { s1 with workers := s1.workers.set i WorkerPc.returned }) := by
  have hinv := Pipeline.inv_run lines avg avgS sched1 _ s (Pipeline.inv_init lines W avg avgS) h1
  obtain ⟨m1, _, m3⟩ := Pipeline.run_monotone sched2 s s1 h2
  have key : s.done = true → s1.done = true ∧ s1.instruments <+: s.instruments :=
    fun hd => ⟨m1 hd, (m3 (hinv.done_iff.mp hd)).2⟩
  refine ⟨key, ?_⟩
  rintro ⟨j, hj⟩
  obtain ⟨hd, hq⟩ := hinv.returned ⟨WorkerPc.returned, List.get?_mem hj, rfl⟩
  obtain ⟨hd1, hpre⟩ := key hd
  rw [hq] at hpre
  have hq1 : s1.instruments = [] := List.prefix_nil.mp hpre
  have hpop : popBatch s1.queue = some (none, s1.queue) := by
    simp [popBatch, Pipeline.queue, hq1, hd1]
  refine ⟨hd1, hq1, hpop, ?_⟩
  intro i hi
  rw [workerStep_popping s1 i hi, hpop]

/-- C14 on the sample run: after seven steps worker 1 has returned; one step
later worker 0 calls `popBatch`, which gives `false`, and its step is to return. -/
theorem done_is_permanent_witness :
    (Pipeline.init sampleLines 2 150 22500).run (sampleSchedule.take 7) = some sampleMid ∧
    sampleMid.run [Thread.worker 0] = some sampleLate ∧
    sampleMid.workers.get? 1 = some WorkerPc.returned ∧
    popBatch sampleLate.queue = some (none, sampleLate.queue) ∧
    workerStep sampleLate 0
      = some { sampleLate with workers := sampleLate.workers.set 0 WorkerPc.returned } := by
  have h1 : (Pipeline.init sampleLines 2 150 22500).run (sampleSchedule.take 7)
      = some sampleMid := by decide!
  have h2 : sampleMid.run [Thread.worker 0] = some sampleLate := by decide!
  have h := (done_is_permanent sampleLines 2 150 22500 (sampleSchedule.take 7)
    [Thread.worker 0] sampleMid sampleLate h1 h2).2 ⟨1, rfl⟩
  exact ⟨h1, h2, rfl, h.2.2.1, h.2.2.2 0 rfl⟩

/-- C17: `popBatch` returns `false` exactly on a queue that is empty with `done`
set, and leaves it as it is; on a non-empty queue it returns a batch, whatever
the flag; and in every reachable state of the pipeline in which `popBatch`
gives `false`, or in which some worker has returned, the producer has returned
from `readTheoData` after `doneReading` with every line read. -/
theorem popBatch_false_iff_done_and_empty (lines : List (List Char)) (W : Nat) (avg avgS : ℚ)
    (sched : List Thread) (s : Pipeline)
    (h : (Pipeline.init lines W avg avgS).run sched = some s) :
    (∀ q r : BatchQueue, popBatch q = some (none, r) ↔
      (q.done = true ∧ q.instruments = [] ∧ r = q)) ∧
    (∀ q : BatchQueue, q.instruments ≠ [] →
      ∃ out, popBatch q = some (some out, { q with instruments := q.instruments.dropLast })) ∧
    (popBatch s.queue = some (none, s.queue) →
      s.done = true ∧ s.pc = ProducerPc.finished ∧ s.unread = []) ∧
    ((∃ j, s.workers.get? j = some WorkerPc.returned) →
      s.done = true ∧ s.instruments = [] ∧ s.pc = ProducerPc.finished ∧ s.unread = []) := by
  have hinv := Pipeline.inv_run lines avg avgS sched _ s (Pipeline.inv_init lines W avg avgS) h
  have hfin : s.done = true → s.pc = ProducerPc.finished ∧ s.unread = [] := by
    intro hd
    have hpc := hinv.done_iff.mp hd
    exact ⟨hpc, hinv.unread_nil (by rw [hpc]; simp)⟩
  have hq : ∀ q r : BatchQueue, popBatch q = some (none, r) ↔
      (q.done = true ∧ q.instruments = [] ∧ r = q) := by
    intro q r
    unfold popBatch
    cases hl : q.instruments.getLast? with
    | some b =>
      have hne : q.instruments ≠ [] := by
        intro e
        rw [e] at hl
        simp at hl
      simp [hne]
    | none =>
      have he : q.instruments = [] := List.getLast?_eq_none_iff.mp hl
      cases hd : q.done <;> simp [he, eq_comm]
  refine ⟨hq, ?_, ?_, ?_⟩
  · intro q hne
    unfold popBatch
    cases hl : q.instruments.getLast? with
    | some b => exact ⟨b, rfl⟩
    | none => exact absurd (List.getLast?_eq_none_iff.mp hl) hne
  · intro hp
    have hd := ((hq s.queue s.queue).mp hp).1
    exact ⟨hd, hfin hd⟩
  · rintro ⟨j, hj⟩
    obtain ⟨hd, he⟩ := hinv.returned ⟨WorkerPc.returned, List.get?_mem hj, rfl⟩
    exact ⟨hd, he, hfin hd⟩

/-- C17 on the sample run: in `sampleLate`, reached after eight steps, `popBatch`
gives `false`, `done` is set and the producer has returned. -/
theorem popBatch_false_iff_done_and_empty_witness :
    (Pipeline.init sampleLines 2 150 22500).run (sampleSchedule.take 8) = some sampleLate ∧
    popBatch sampleLate.queue = some (none, sampleLate.queue) ∧
    sampleLate.done = true ∧ sampleLate.pc = ProducerPc.finished ∧ sampleLate.unread = [] := by
  have h1 : (Pipeline.init sampleLines 2 150 22500).run (sampleSchedule.take 8)
      = some sampleLate := by decide!
  have hp : popBatch sampleLate.queue = some (none, sampleLate.queue) := by decide
  exact ⟨h1, hp,
    (popBatch_false_iff_done_and_empty sampleLines 2 150 22500 (sampleSchedule.take 8)
      sampleLate h1).2.2.1 hp⟩

/-! ## Empty and blank fields -/

/-- Function `strtod` converts nothing on a string of white space: the value is
`0` and the tail is the whole string. -/
theorem strtod_of_blank (s : List Char) (h : ∀ c ∈ s, isspace c = true) :
    strtod s = (Double.finite 0, s) := by
  have hd : s.dropWhile isspace = [] := (takeWhile_all isspace s h).2
  have h1 : strtodSpecial [] = none := strtodSpecial_of_lt [] (by simp)
  have h2 : strtodHex [] = none := strtodHex_of_lt [] (by simp)
  have h3 : strtodDecimal [] = none := by
    simp [strtodDecimal, strtodMantissa]
  simp only [strtod, hd, strtodSign, h1, h2, h3]

/-- Function `parseDouble` succeeds with value `0` on an empty span and on a
span of white space, of any length. -/
theorem parseDouble_of_blank (f : List Char) (h : ∀ c ∈ f, isspace c = true) :
    parseDouble f = (true, Double.finite 0) := by
  have hc : ∀ c ∈ (f.take 47).takeWhile (fun c => decide (c.toNat ≠ 0)), isspace c = true :=
    fun c hc => h c (List.mem_of_mem_take ((List.takeWhile_sublist _).subset hc))
  rw [parseDouble_eq, strtod_of_blank _ hc, (takeWhile_all isspace _ hc).2]
  rfl

/-- C18: an empty or whitespace-only numeric field does not fail parsing:
`parseDouble` returns success with value `0` on such a span; a line whose four
numeric fields are empty or blank is accepted with `A = B = C = 0`, and so is,
for every name without a comma, the name followed by `,,,,`. -/
theorem lineToInstrument_accepts_blank_fields (name f1 f2 f3 f4 : List Char)
    (hname : ',' ∉ name)
    (h1 : ∀ c ∈ f1, isspace c = true) (h2 : ∀ c ∈ f2, isspace c = true)
    (h3 : ∀ c ∈ f3, isspace c = true) (h4 : ∀ c ∈ f4, isspace c = true) :
    parseDouble [] = (true, Double.finite 0) ∧
    parseDouble f1 = (true, Double.finite 0) ∧
    lineToInstrument (name ++ ',' :: (f1 ++ ',' :: (f2 ++ ',' :: (f3 ++ ',' :: f4))))
      = some { name_ := name, A_ := Double.finite 0, B_ := Double.finite 0,
               C_ := Double.finite 0 } ∧
    lineToInstrument (name ++ ",,,,".toList)
      = some { name_ := name, A_ := Double.finite 0, B_ := Double.finite 0,
               C_ := Double.finite 0 } := by
  have hcoef : coefficients (Double.finite 0) (Double.finite 0) (Double.finite 0)
      (Double.finite 0) = (Double.finite 0, Double.finite 0, Double.finite 0) := by
    rw [coefficients_finite]
    norm_num
  have hnc : ∀ f : List Char, (∀ c ∈ f, isspace c = true) → ',' ∉ f := by
    intro f hf hm
    have := hf ',' hm
    revert this
    decide
  have hempty := parseDouble_of_blank [] (by simp)
  have key : ∀ g1 g2 g3 g4 : List Char, (∀ c ∈ g1, isspace c = true) →
      (∀ c ∈ g2, isspace c = true) → (∀ c ∈ g3, isspace c = true) →
      (∀ c ∈ g4, isspace c = true) →
      lineToInstrument (name ++ ',' :: (g1 ++ ',' :: (g2 ++ ',' :: (g3 ++ ',' :: g4))))
        = some { name_ := name, A_ := Double.finite 0, B_ := Double.finite 0,
                 C_ := Double.finite 0 } := by
    intro g1 g2 g3 g4 k1 k2 k3 k4
    rw [lineToInstrument_fields name g1 g2 g3 g4 hname (hnc g1 k1) (hnc g2 k2) (hnc g3 k3),
      parseDouble_of_blank g1 k1, parseDouble_of_blank g2 k2, parseDouble_of_blank g3 k3,
      parseDouble_of_blank g4 k4, hcoef]
    simp
  refine ⟨hempty, parseDouble_of_blank f1 h1, key f1 f2 f3 f4 h1 h2 h3 h4, ?_⟩
  have := key [] [] [] [] (by simp) (by simp) (by simp) (by simp)
  simpa using this

/-- C18 on sample lines: `AAPL,,,,` and `AAPL,, ,,` (a blank third field) are
accepted with `A = B = C = 0`. -/
theorem lineToInstrument_accepts_blank_fields_witness :
    lineToInstrument "AAPL,, ,,".toList
      = some { name_ := "AAPL".toList, A_ := Double.finite 0, B_ := Double.finite 0,
               C_ := Double.finite 0 } ∧
    lineToInstrument "AAPL,,,,".toList
      = some { name_ := "AAPL".toList, A_ := Double.finite 0, B_ := Double.finite 0,
               C_ := Double.finite 0 } := by
  have h := lineToInstrument_accepts_blank_fields "AAPL".toList [] " ".toList [] []
    (by decide) (by simp) (by decide) (by simp) (by simp)
  exact ⟨h.2.2.1, h.2.2.2⟩

/-! ## The price as the average theo -/

/-- The sum of the delta-gamma theo over the samples, by the count, the sum and
the sum of squares of the samples. -/
theorem sum_deltaGammaTheo (refTheo refUp delta gamma : ℚ) (vs : List ℚ) :
    (vs.map (deltaGammaTheo refTheo refUp delta gamma)).sum
      = (vs.length : ℚ) * refTheo + delta * (vs.sum - vs.length * refUp)
        + 1 / 2 * gamma * ((vs.map (fun v => v * v)).sum - 2 * refUp * vs.sum
            + vs.length * (refUp * refUp)) := by
  induction vs with
  | nil => simp
  | cons v t ih =>
    simp only [List.map_cons, List.sum_cons, List.length_cons, Nat.cast_add, Nat.cast_one, ih,
      deltaGammaTheo]
    norm_num
    ring

/-- C16: in exact arithmetic, for every instrument `(refTheo, refUp, delta,
gamma)` and every non-empty sequence of underlying prices, the price `A +
mean*B + meanOfSquares*C` computed from the statistics of the reducer is the
naive average of `refTheo + delta*(v_i - refUp) + 0.5*gamma*(v_i - refUp)^2`
over the samples. -/
theorem price_eq_naive_average (refTheo refUp delta gamma : ℚ) (vs : List ℚ) (h : vs ≠ []) :
    theoPrice
        (coefficients (Double.finite refTheo) (Double.finite refUp) (Double.finite delta)
          (Double.finite gamma)).1
        (coefficients (Double.finite refTheo) (Double.finite refUp) (Double.finite delta)
          (Double.finite gamma)).2.1
        (coefficients (Double.finite refTheo) (Double.finite refUp) (Double.finite delta)
          (Double.finite gamma)).2.2
        (readUnderlyingPrices (some vs)).2.1 (readUnderlyingPrices (some vs)).2.2
      = Double.finite (naiveAverageTheo refTheo refUp delta gamma vs) := by
  have hlen : (vs.length : ℚ) ≠ 0 := by
    have : 0 < vs.length := List.length_pos.mpr h
    exact_mod_cast this.ne'
  rw [readUnderlyingPrices_of_ne_nil vs h, coefficients_finite, theoPrice_finite,
    naiveAverageTheo, sum_deltaGammaTheo]
  congr 1
  field_simp
  ring

/-- C16 on a sample: the instrument `(100, 150, 0.5, 0.01)` and the prices
`140 160` give the price `100.5`, the average of the theos `95.5` and `105.5`. -/
theorem price_eq_naive_average_witness :
    ([140, 160] : List ℚ) ≠ [] ∧
    naiveAverageTheo 100 150 0.5 0.01 [140, 160] = 100.5 ∧
    theoPrice
        (coefficients (Double.finite 100) (Double.finite 150) (Double.finite 0.5)
          (Double.finite 0.01)).1
        (coefficients (Double.finite 100) (Double.finite 150) (Double.finite 0.5)
          (Double.finite 0.01)).2.1
        (coefficients (Double.finite 100) (Double.finite 150) (Double.finite 0.5)
          (Double.finite 0.01)).2.2
        (readUnderlyingPrices (some [140, 160])).2.1 (readUnderlyingPrices (some [140, 160])).2.2
      = Double.finite 100.5 := by
  have hv : naiveAverageTheo 100 150 0.5 0.01 [140, 160] = 100.5 := by
    simp only [naiveAverageTheo, deltaGammaTheo, List.map_cons, List.map_nil, List.sum_cons,
      List.sum_nil, List.length_cons, List.length_nil]
    norm_num
  refine ⟨by simp, hv, ?_⟩
  rw [price_eq_naive_average 100 150 0.5 0.01 [140, 160] (by simp), hv]

/-! ## The text of a row -/

/-- When the fixed notation of a finite price fits the buffer `num`, the row is
the name, a comma, the price with four digits after the point and a newline. -/
theorem rowText_of_fits (avg avgS : ℚ) (r : InstrumentData) (q : ℚ)
    (hp : theoPrice r.A_ r.B_ r.C_ avg avgS = Double.finite q)
    (hfit : (fixedText 4 q).length ≤ 32) :
    rowText avg avgS r = some (specRowText r.name_ q) := by
  have hfit2 : (fixedText 4 q).length ≤ NUM_SIZE := hfit
  simp only [rowText, hp, toChars, if_pos hfit2, specRowText]

/-- When the fixed notation of a finite price does not fit the buffer `num`,
the text of the row is unspecified. -/
theorem rowText_of_too_large (avg avgS : ℚ) (r : InstrumentData) (q : ℚ)
    (hp : theoPrice r.A_ r.B_ r.C_ avg avgS = Double.finite q)
    (hbig : 32 < (fixedText 4 q).length) :
    rowText avg avgS r = none := by
  have hbig2 : ¬ (fixedText 4 q).length ≤ NUM_SIZE := by
    simp only [NUM_SIZE]; omega
  simp only [rowText, hp, toChars, if_neg hbig2]

/-- C15, the failing input: the line `BIG,1e30,0,0,0` is accepted with
`A = 10^30`, `B = C = 0`; with the statistics `(1, 1)` of the underlying price
`1` its price is `10^30`, whose fixed notation with four digits after the point
has 36 characters; `to_chars` reports `value_too_large` on the buffer of 32 and
the row appended is not determined, where the claim has the row
`BIG,1000000000000000000000000000000.0000`.  For the record of
`AAPL,100.0,150.0,0.5,0.01` and the statistics of `150 150 150` the row is
`AAPL,100.0000` and a newline. -/
theorem row_of_large_price_unspecified :
    lineToInstrument "BIG,1e30,0,0,0".toList
      = some { name_ := "BIG".toList, A_ := Double.finite (10 ^ 30), B_ := Double.finite 0,
               C_ := Double.finite 0 } ∧
    theoPrice (Double.finite (10 ^ 30)) (Double.finite 0) (Double.finite 0) 1 1
      = Double.finite (10 ^ 30) ∧
    specRowText "BIG".toList (10 ^ 30)
      = "BIG,1000000000000000000000000000000.0000".toList ++ [Char.ofNat 10] ∧
    (fixedText 4 (10 ^ 30)).length = 36 ∧
    toChars (10 ^ 30) = none ∧
    rowText 1 1 { name_ := "BIG".toList, A_ := Double.finite (10 ^ 30), B_ := Double.finite 0,
                  C_ := Double.finite 0 } = none ∧
    rowText 150 22500 sampleRecord = some ("AAPL,100.0000".toList ++ [Char.ofNat 10]) := by
  refine ⟨by decide!, ?_, by decide!, by decide!, by decide!, by decide!, by decide!⟩
  rw [theoPrice_finite]
  norm_num

end TheoPricer
